import Mathlib

/-!
Verification of the bar-aggregation and signal-generation core of a
quantitative trading analysis platform.  Numeric values are modelled as
exact rationals; a pandas `NaN` (missing value) is modelled as `none`.
Series are positionally indexed lists of optional rationals.
-/

/-- A pandas cell value: `none` models NaN / a missing value. -/
abbrev Val := Option ℚ

/-- A pandas Series, positionally indexed. -/
abbrev Series := List Val

/-- Value of a series at a position; out-of-range reads give NaN. -/
def atV (s : Series) (i : ℕ) : Val := (s.get? i).getD none

/-- Strict less-than on values; any comparison involving NaN is false,
as for IEEE floats in pandas. -/
def vlt : Val → Val → Bool
  | some a, some b => decide (a < b)
  | _, _ => false

/-- Strict greater-than on values (NaN compares false). -/
def vgt (a b : Val) : Bool := vlt b a

/-- Less-or-equal on values (NaN compares false). -/
def vle : Val → Val → Bool
  | some a, some b => decide (a ≤ b)
  | _, _ => false

/-- Greater-or-equal on values (NaN compares false). -/
def vge (a b : Val) : Bool := vle b a

/-- NaN-propagating subtraction. -/
def vsub : Val → Val → Val
  | some a, some b => some (a - b)
  | _, _ => none

/-- NaN-propagating negation (pandas `-series`). -/
def vneg : Val → Val
  | some a => some (-a)
  | none => none

/-- NaN-propagating division.  A zero divisor is mapped to NaN: the float
special values (inf, -inf, nan) produced by a zero divisor are all collapsed
to the missing value in this rational model. -/
def vdivV : Val → Val → Val
  | some a, some b => if b = 0 then none else some (a / b)
  | _, _ => none

/-- NaN-propagating scaling by a constant. -/
def vscale (c : ℚ) : Val → Val
  | some a => some (c * a)
  | none => none

/-- Lift a fully defined price list into a Series. -/
def liftS (xs : List ℚ) : Series := xs.map some

/-- True when every cell of the list is defined (non-NaN). -/
def allSomeB (vs : List Val) : Bool := vs.all (fun v => v.isSome)

/-- The defined (non-NaN) cells of a list, in order. -/
def valsQ (vs : List Val) : List ℚ := vs.filterMap id

/-- Sum of a list of rationals. -/
def sumQ (qs : List ℚ) : ℚ := qs.foldl (· + ·) 0

/-- The last `p` cells of a list (the trailing window ending at its last cell). -/
def lastN (p : ℕ) (w : List Val) : List Val := w.drop (w.length - p)

/-- Build a series whose cell at `i` is a function of the prefix of the
input up to and including position `i`.  All pandas rolling / expanding /
shifting primitives used by the strategies are instances of this shape. -/
def prefixMap (F : List Val → Val) (s : Series) : Series :=
  (List.range s.length).map (fun i => F (s.take (i + 1)))

/-- Cell function of `rolling(window := p).mean()`: arithmetic mean of the
trailing `p` cells, NaN unless the window is full and fully defined. -/
def meanF (p : ℕ) (w : List Val) : Val :=
  if p ≤ w.length ∧ allSomeB (lastN p w) then
    some (sumQ (valsQ (lastN p w)) / (p : ℚ))
  else none

/-- `series.rolling(window := p).mean()`. -/
def rollingMean (p : ℕ) (s : Series) : Series := prefixMap (meanF p) s

/-- One step of exponential smoothing with factor `α`. -/
def ewmStep (α : ℚ) (v y : ℚ) : ℚ := α * y + (1 - α) * v

/-- Cell function of `ewm(span := p, adjust := False).mean()`: seed is the
first defined value, then `v = α*y + (1-α)*v` over the defined prefix. -/
def ewmF (α : ℚ) (w : List Val) : Val :=
  match valsQ w with
  | [] => none
  | x :: r => some (r.foldl (ewmStep α) x)

/-- `series.ewm(span := p, adjust := False).mean()` with `α = 2/(p+1)`. -/
def ewmMean (p : ℕ) (s : Series) : Series :=
  prefixMap (ewmF (2 / ((p : ℚ) + 1))) s

/-- Ascending integer weights `1..p` as rationals (`np.arange(1, p+1)`). -/
def weightsTo (p : ℕ) : List ℚ := (List.range p).map (fun j => (j : ℚ) + 1)

/-- Dot product of two rational lists. -/
def dotQ (a b : List ℚ) : ℚ := sumQ (List.zipWith (· * ·) a b)

/-- Cell function of the weighted-linear MA:
`rolling(p).apply(lambda prices: np.dot(prices, weights)/weights.sum())`. -/
def wmaF (p : ℕ) (w : List Val) : Val :=
  if p ≤ w.length ∧ allSomeB (lastN p w) then
    some (dotQ (valsQ (lastN p w)) (weightsTo p) / sumQ (weightsTo p))
  else none

/-- The weighted-linear moving average over a series. -/
def rollingWma (p : ℕ) (s : Series) : Series := prefixMap (wmaF p) s

/-- Cell function of `rolling(window := p).std()` (sample standard deviation,
ddof = 1).  The square root on rationals is supplied as a parameter `rsq`;
every theorem below is quantified over it.  A window of size 1 gives NaN
(division by ddof zero), as pandas does. -/
def stdF (rsq : ℚ → ℚ) (p : ℕ) (w : List Val) : Val :=
  if 2 ≤ p ∧ p ≤ w.length ∧ allSomeB (lastN p w) then
    some (rsq (sumQ ((valsQ (lastN p w)).map
      (fun x => (x - sumQ (valsQ (lastN p w)) / (p : ℚ)) ^ 2)) / ((p : ℚ) - 1)))
  else none

/-- `series.rolling(window := p).std()`. -/
def rollingStd (rsq : ℚ → ℚ) (p : ℕ) (s : Series) : Series :=
  prefixMap (stdF rsq p) s

/-- Cell function of `series.diff(p)`: difference with the cell `p` positions
earlier, NaN for the first `p` positions. -/
def diffF (p : ℕ) (w : List Val) : Val :=
  if p + 1 ≤ w.length then vsub (atV w (w.length - 1)) (atV w (w.length - 1 - p))
  else none

/-- `series.diff(p)`. -/
def diffS (p : ℕ) (s : Series) : Series := prefixMap (diffF p) s

/-- Cell function of `series.shift(1)`: the previous cell, NaN at position 0. -/
def shiftF (w : List Val) : Val :=
  if 2 ≤ w.length then atV w (w.length - 2) else none

/-- `series.shift(1)`: every cell moved forward one position. -/
def shiftOne (s : Series) : Series := prefixMap shiftF s

/-- Insert into a sorted rational list, keeping it sorted. -/
def insertQ (x : ℚ) : List ℚ → List ℚ
  | [] => [x]
  | y :: ys => if x ≤ y then x :: y :: ys else y :: insertQ x ys

/-- Sort a rational list ascending (insertion sort). -/
def sortQ (qs : List ℚ) : List ℚ := qs.foldr insertQ []

/-- Linear-interpolation quantile of a sorted nonempty list, as pandas
`quantile(q)` computes it: position `q*(m-1)`, interpolating linearly
between the two neighbouring order statistics. -/
def quantAt (q : ℚ) (sorted : List ℚ) : ℚ :=
  let pos : ℚ := q * ((sorted.length : ℚ) - 1)
  let lo : ℕ := (Rat.floor pos).toNat
  let hi : ℕ := (Rat.ceil pos).toNat
  sorted.getD lo 0 + (pos - ((Rat.floor pos : ℤ) : ℚ)) * (sorted.getD hi 0 - sorted.getD lo 0)

/-- Cell function of `series.expanding().quantile(q)`: the quantile of the
defined cells of the whole history up to and including the current position,
NaN while no defined cell exists yet. -/
def quantF (q : ℚ) (w : List Val) : Val :=
  match valsQ w with
  | [] => none
  | x :: r => some (quantAt q (sortQ (x :: r)))

/-- `series.expanding().quantile(q)`. -/
def expandingQuantile (q : ℚ) (s : Series) : Series := prefixMap (quantF q) s

/-- Pointwise unary map over a series. -/
def mapV (f : Val → Val) (s : Series) : Series := s.map f

/-- Pointwise binary combination of two (index-aligned) series. -/
def zipV (f : Val → Val → Val) (a b : Series) : Series := List.zipWith f a b

/-- Python exception kinds observable from the strategies and the
aggregator.  `valueError` with the source's message realises the spec's
`UnsupportedConfig`; the others are the unrelated errors the source can
actually raise. -/
inductive PyErr where
  | valueError (msg : String)
  | attributeError
  | unboundLocalError
  | fileNotFound
  | parseError
deriving DecidableEq

/-- The `threshold` field of the SMAS parameters: a scalar after
construction, but (for method M4) overwritten with a whole series. -/
inductive Thresh where
  | scl (q : ℚ)
  | ser (s : Series)
deriving DecidableEq

/-- `SMASParams`: the slope-threshold strategy's dataclass, including the
`ma`/`beta` slots the source stores computed series into. -/
structure SMASParams where
  method : String
  ma_type : String
  ma_period : ℕ
  slope_period : ℕ
  threshold : Thresh
  ma : Option Series
  beta : Option Series
deriving DecidableEq

/-- Moving-average dispatch for a known kind (`SMA`, `EMA`, `WMA`); the
final branch is the `WMA` arm of the source's if/elif chains. -/
def maOf (kind : String) (p : ℕ) (closes : List ℚ) : Series :=
  if kind = "SMA" then rollingMean p (liftS closes)
  else if kind = "EMA" then ewmMean p (liftS closes)
  else rollingWma p (liftS closes)

namespace SMAS

/-- `SMASStrategy.create_ma`: dispatch on `ma_type`.  The source's if/elif
chain has no else branch, so an unknown kind silently returns Python
`None`, modelled as `none`. -/
def create_ma (ps : SMASParams) (closes : List ℚ) (period : ℕ) : Option Series :=
  if ps.ma_type = "SMA" ∨ ps.ma_type = "EMA" ∨ ps.ma_type = "WMA" then
    some (maOf ps.ma_type period closes)
  else none

/-- `slope = ma.diff(period) / period`. -/
def slopeOf (period : ℕ) (ma : Series) : Series :=
  mapV (fun v => vdivV v (some (period : ℚ))) (diffS period ma)

/-- The M4 (and unscaled-M2) percentage slope `slope / ma.shift(1)`. -/
def pctSlope (period : ℕ) (ma : Series) : Series :=
  zipV vdivV (slopeOf period ma) (shiftOne ma)

/-- The expanding interquartile range `q3 - q1` of the M4 percentage slope,
quantiles taken over all history up to and including each position. -/
def iqrOf (period : ℕ) (ma : Series) : Series :=
  zipV vsub (expandingQuantile (3 / 4) (pctSlope period ma))
            (expandingQuantile (1 / 4) (pctSlope period ma))

/-- The unshifted beta series for each estimation method. -/
def betaPre (rsq : ℚ → ℚ) (method : String) (period : ℕ) (ma : Series) : Series :=
  if method = "M1" then slopeOf period ma
  else if method = "M2" then mapV (vscale 100) (pctSlope period ma)
  else if method = "M3" then
    zipV vdivV (zipV vsub (slopeOf period ma) (rollingMean period (slopeOf period ma)))
               (rollingStd rsq period (slopeOf period ma))
  else pctSlope period ma

/-- `SMASStrategy.calculate_beta`: computes the method's beta, for M4
overwrites `params.threshold` with the expanding IQR series, raises
`ValueError` (the `UnsupportedConfig` case) on an unknown method, and
finally shifts the beta forward one position. -/
def calculate_beta (rsq : ℚ → ℚ) (method : String) (ma : Series) (period : ℕ)
    (ps : SMASParams) : Except PyErr (Series × SMASParams) :=
  if method = "M1" ∨ method = "M2" ∨ method = "M3" ∨ method = "M4" then
    .ok (shiftOne (betaPre rsq method period ma),
         if method = "M4" then { ps with threshold := Thresh.ser (iqrOf period ma) } else ps)
  else .error (.valueError ("不支援的計算方式: " ++ method))

/-- The effective threshold value at a position: a scalar threshold applies
everywhere, a series threshold is read positionally. -/
def thrAt : Thresh → ℕ → Val
  | .scl q, _ => some q
  | .ser s, i => atV s i

/-- One signal cell: `-1` where `beta < -threshold` (the assignment written
last in the source, so it wins), else `1` where `beta > threshold`, else 0. -/
def sigAt (b thr : Val) : ℤ :=
  if vlt b (vneg thr) then -1 else if vgt b thr then 1 else 0

/-- `SMASStrategy.calculate_signals`: computes the MA (AttributeError when
`create_ma` returned `None`), stores it on the params, computes beta (which
may overwrite the threshold), stores it, and emits the signal series. -/
def calculate_signals (rsq : ℚ → ℚ) (ps : SMASParams) (closes : List ℚ) :
    Except PyErr (SMASParams × List ℤ) :=
  match create_ma ps closes ps.ma_period with
  | none => .error .attributeError
  | some ma =>
    match calculate_beta rsq ps.method ma ps.slope_period { ps with ma := some ma } with
    | .error e => .error e
    | .ok (beta, ps2) =>
      let ps3 := { ps2 with beta := some beta }
      .ok (ps3, (List.range closes.length).map
        (fun i => sigAt (atV beta i) (thrAt ps3.threshold i)))

end SMAS

/-- The signal list of a strategy run, empty when the run raised. -/
def sigListOf : Except PyErr (SMASParams × List ℤ) → List ℤ
  | .ok r => r.2
  | .error _ => []

/-- `SMACParams`: the single-MA cross strategy's dataclass. -/
structure SMACParams where
  period : ℕ
deriving DecidableEq

/-- Signal series of a boundary cross between a fast and a slow series:
`1` where fast crosses from ≤ slow to > slow, `-1` on the symmetric
downward cross (assigned second in the source, so it wins), else 0. -/
def crossSigs (fast slow : Series) (n : ℕ) : List ℤ :=
  (List.range n).map (fun i =>
    if vlt (atV fast i) (atV slow i) ∧
       vge (atV (shiftOne fast) i) (atV (shiftOne slow) i) then -1
    else if vgt (atV fast i) (atV slow i) ∧
            vle (atV (shiftOne fast) i) (atV (shiftOne slow) i) then 1
    else 0)

namespace SMAC

/-- `SMACStrategy.wma`: the weighted-linear moving average of the closes. -/
def wma (ps : SMACParams) (closes : List ℚ) : Series :=
  rollingWma ps.period (liftS closes)

/-- `SMACStrategy.calculate_signals`: price-vs-WMA boundary crosses.  The
source performs no MA-kind dispatch at all: it always uses the WMA. -/
def calculate_signals (ps : SMACParams) (closes : List ℚ) : List ℤ :=
  crossSigs (liftS closes) (wma ps closes) closes.length

end SMAC

/-- `DMACParams`: the dual-MA cross strategy's dataclass. -/
structure DMACParams where
  ma_type : String
  fast_period : ℕ
  slow_period : ℕ
deriving DecidableEq

namespace DMAC

/-- `DMACStrategy.calculate_signals`: fast-vs-slow MA boundary crosses.
The kind dispatch has no else branch, so with an unknown kind the local
variables `fast_ma`/`slow_ma` are never bound and the first use raises
`UnboundLocalError`. -/
def calculate_signals (ps : DMACParams) (closes : List ℚ) : Except PyErr (List ℤ) :=
  if ps.ma_type = "SMA" ∨ ps.ma_type = "EMA" ∨ ps.ma_type = "WMA" then
    .ok (crossSigs (maOf ps.ma_type ps.fast_period closes)
                   (maOf ps.ma_type ps.slow_period closes) closes.length)
  else .error .unboundLocalError

end DMAC

/-- `TMACParams`: the triple-MA cross strategy's dataclass. -/
structure TMACParams where
  ma_type : String
  short_period : ℕ
  mid_period : ℕ
  long_period : ℕ
deriving DecidableEq

namespace TMAC

/-- `TMACStrategy.calculate_signals`: `1` where short > mid > long and at
least one adjacent pair did not hold that ordering one step earlier;
symmetric `-1`; unknown kinds raise `ValueError` (`UnsupportedConfig`). -/
def calculate_signals (ps : TMACParams) (closes : List ℚ) : Except PyErr (List ℤ) :=
  if ps.ma_type = "SMA" ∨ ps.ma_type = "EMA" ∨ ps.ma_type = "WMA" then
    .ok ((List.range closes.length).map (fun i =>
      let s := maOf ps.ma_type ps.short_period closes
      let m := maOf ps.ma_type ps.mid_period closes
      let l := maOf ps.ma_type ps.long_period closes
      if vlt (atV s i) (atV m i) ∧ vlt (atV m i) (atV l i) ∧
         (vge (atV (shiftOne s) i) (atV (shiftOne m) i) ∨
          vge (atV (shiftOne m) i) (atV (shiftOne l) i)) then -1
      else if vgt (atV s i) (atV m i) ∧ vgt (atV m i) (atV l i) ∧
              (vle (atV (shiftOne s) i) (atV (shiftOne m) i) ∨
               vle (atV (shiftOne m) i) (atV (shiftOne l) i)) then 1
      else 0))
  else .error (.valueError "不支援的 MA 類型")

end TMAC

/-- `GMMAParams`: the Guppy multi-group MA strategy's dataclass. -/
structure GMMAParams where
  ma_type : String
  short_periods : List ℕ
  long_periods : List ℕ
deriving DecidableEq

/-- The Python read `series[i-1]`.  At `i = 0` this indexes position `-1`;
the out-of-range policy is abstracted as the parameter `oob` so that
theorems can show it is never consulted. -/
def prevV (oob : Val) (s : Series) (i : ℕ) : Val :=
  if i = 0 then oob else atV s (i - 1)

namespace GMMA

/-- The source's loop body over the two MA groups: the pairwise all/any
scan.  `1` at a position where every short-group MA strictly exceeds every
long-group MA and some pair did not satisfy that ordering one step earlier;
symmetric `-1`. -/
def core (oob : Val) (shortMas longMas : List Series) (n : ℕ) : List ℤ :=
  (List.range n).map (fun i =>
    if shortMas.all (fun s => longMas.all (fun l => vgt (atV s i) (atV l i))) then
      (if shortMas.any (fun s => longMas.any (fun l =>
          vle (prevV oob s i) (prevV oob l i))) then 1 else 0)
    else if shortMas.all (fun s => longMas.all (fun l => vlt (atV s i) (atV l i))) then
      (if shortMas.any (fun s => longMas.any (fun l =>
          vge (prevV oob s i) (prevV oob l i))) then -1 else 0)
    else 0)

/-- `GMMAStrategy.calculate_signals`.  The inner `ma` helper raises
`ValueError` on an unknown kind at its first invocation, so the error is
raised exactly when a group is nonempty; with both groups empty the loop
produces all-zero signals without ever dispatching. -/
def calculate_signals (oob : Val) (ps : GMMAParams) (closes : List ℚ) :
    Except PyErr (List ℤ) :=
  if ps.ma_type = "SMA" ∨ ps.ma_type = "EMA" ∨ ps.ma_type = "WMA" then
    .ok (core oob (ps.short_periods.map (fun p => maOf ps.ma_type p closes))
                  (ps.long_periods.map (fun p => maOf ps.ma_type p closes))
                  closes.length)
  else if ps.short_periods = [] ∧ ps.long_periods = [] then
    .ok (List.replicate closes.length 0)
  else .error (.valueError "不支援的 MA 類型")

end GMMA

/-- Minimum of a nonempty rational list, NaN on the empty list. -/
def qMinD : List ℚ → Val
  | [] => none
  | x :: r => some (r.foldl min x)

/-- Maximum of a nonempty rational list, NaN on the empty list. -/
def qMaxD : List ℚ → Val
  | [] => none
  | x :: r => some (r.foldl max x)

/-- Minimum of a list of values, NaN if any cell is NaN (or the list is
empty), as `min` over floats propagates NaN. -/
def optMinL (vs : List Val) : Val :=
  if allSomeB vs then qMinD (valsQ vs) else none

/-- Maximum of a list of values, NaN-propagating. -/
def optMaxL (vs : List Val) : Val :=
  if allSomeB vs then qMaxD (valsQ vs) else none

/-- Modelled from the spec: the min/max form of the GMMA rule the spec
declares equivalent to the pairwise scan — compare min(short-group) against
max(long-group) at `t` and `t-1` for the buy side, and max(short-group)
against min(long-group) for the sell side. -/
def gmmaMinMax (oob : Val) (shortMas longMas : List Series) (n : ℕ) : List ℤ :=
  (List.range n).map (fun i =>
    if vgt (optMinL (shortMas.map (fun s => atV s i)))
           (optMaxL (longMas.map (fun l => atV l i))) then
      (if vle (optMinL (shortMas.map (fun s => prevV oob s i)))
              (optMaxL (longMas.map (fun l => prevV oob l i))) then 1 else 0)
    else if vlt (optMaxL (shortMas.map (fun s => atV s i)))
                (optMinL (longMas.map (fun l => atV l i))) then
      (if vge (optMaxL (shortMas.map (fun s => prevV oob s i)))
              (optMinL (longMas.map (fun l => prevV oob l i))) then -1 else 0)
    else 0)

/-- A trade tick inside one trading day; `time` is in seconds since the
day's midnight. -/
structure Tick where
  time : ℕ
  price : ℚ
  vol : ℚ
deriving DecidableEq

/-- An OHLCV bar; `label` is the bucket's left (open-time) label in seconds
since midnight. -/
structure Bar where
  label : ℕ
  op : ℚ
  hi : ℚ
  lo : ℚ
  cl : ℚ
  vol : ℚ
deriving DecidableEq

/-- Session open, 09:00:00, in seconds since midnight. -/
def sessionOpenS : ℕ := 32400

/-- Session close, 13:30:00, in seconds since midnight. -/
def sessionCloseS : ℕ := 48600

/-- `df.between_time("09:00", "13:30")`: keep ticks inside the session,
both boundaries inclusive. -/
def filterSession (ts : List Tick) : List Tick :=
  ts.filter (fun t => decide (sessionOpenS ≤ t.time) && decide (t.time ≤ sessionCloseS))

/-- The boundary correction: every tick stamped exactly at the session
close is shifted back one second. -/
def shiftClose (ts : List Tick) : List Tick :=
  ts.map (fun t => if t.time = sessionCloseS then { t with time := t.time - 1 } else t)

/-- The left-closed, left-labelled bucket of a timestamp for width `w`
seconds, anchored at midnight (pandas `resample(..., closed='left',
label='left')` with its day-start origin). -/
def bucketOf (w time : ℕ) : ℕ := time / w * w

/-- Insert into a sorted natural-number list, keeping it sorted. -/
def insertN (x : ℕ) : List ℕ → List ℕ
  | [] => [x]
  | y :: ys => if x ≤ y then x :: y :: ys else y :: insertN x ys

/-- Sort a natural-number list ascending (insertion sort). -/
def sortN (ns : List ℕ) : List ℕ := ns.foldr insertN []

/-- The ascending labels of the non-empty buckets of a tick list. -/
def labelsOf (w : ℕ) (ts : List Tick) : List ℕ :=
  (sortN (ts.map (fun t => bucketOf w t.time))).dedup

/-- Largest element of a rational list (0 on empty, never used there). -/
def qMax0 : List ℚ → ℚ
  | [] => 0
  | x :: r => r.foldl max x

/-- Smallest element of a rational list (0 on empty, never used there). -/
def qMin0 : List ℚ → ℚ
  | [] => 0
  | x :: r => r.foldl min x

/-- The OHLCV bar of one bucket: open and close are the first and last
constituent tick prices, high/low the extremes, volume the sum. -/
def mkBar (lab : ℕ) (g : List Tick) : Bar :=
  { label := lab
    op := (g.map Tick.price).headD 0
    hi := qMax0 (g.map Tick.price)
    lo := qMin0 (g.map Tick.price)
    cl := (g.map Tick.price).getLastD 0
    vol := sumQ (g.map Tick.vol) }

/-- Aggregate ticks into bars: one bar per non-empty bucket, in ascending
label order; empty buckets are dropped, never synthesized. -/
def barsOf (w : ℕ) (ts : List Tick) : List Bar :=
  (labelsOf w ts).map (fun lab => mkBar lab (ts.filter (fun t => bucketOf w t.time = lab)))

/-- The trailing-bar correction applied to a single bar: the source checks
for the literal label 13:35 (hour 13, minute 35) and moves its minute back
to 30. -/
def fixBar (b : Bar) : Bar :=
  if b.label / 3600 % 24 = 13 ∧ b.label % 3600 / 60 = 35 then
    { b with label := b.label - 300 }
  else b

/-- The source's final-bar relabeling step, applied to the last bar only. -/
def relabelLast : List Bar → List Bar
  | [] => []
  | [b] => [fixBar b]
  | b :: rest => b :: relabelLast rest

/-- The whole in-memory aggregation pipeline of `KLineGenerator.get_k_line`
for one session's ticks: session filter, boundary shift, bucketing,
final-bar relabel. -/
def genKLine (w : ℕ) (ticks : List Tick) : List Bar :=
  relabelLast (barsOf w (shiftClose (filterSession ticks)))

/-- A raw tick record as read from a CSV partition, its timestamp still
unparsed text. -/
structure RawTick where
  ts : String
  price : ℚ
  vol : ℚ
deriving DecidableEq

/-- Split a character list on the colon separator. -/
def splitCols : List Char → List (List Char)
  | [] => [[]]
  | c :: cs =>
    let rest := splitCols cs
    if c = ':' then [] :: rest
    else
      match rest with
      | [] => [[c]]
      | g :: gs => (c :: g) :: gs

/-- Read a nonempty digit string as a natural number, `none` on any
non-digit character. -/
def digitsToNat : List Char → Option ℕ
  | [] => none
  | ds => ds.foldl (fun acc c =>
      match acc with
      | none => none
      | some n => if '0' ≤ c ∧ c ≤ '9' then some (n * 10 + (c.toNat - 48)) else none)
      (some 0)

/-- Timestamp parsing (the `pd.to_datetime` step) for an `HH:MM:SS` time of
day; unparseable text gives `none`. -/
def parseHMS (str : String) : Option ℕ :=
  match (splitCols str.data).map digitsToNat with
  | [some h, some m, some s] =>
    if h < 24 ∧ m < 60 ∧ s < 60 then some (h * 3600 + m * 60 + s) else none
  | _ => none

/-- Parse a concatenated tick partition, failing fast with `ParseError` on
the first unparseable timestamp. -/
def parseAll : List RawTick → Except PyErr (List Tick)
  | [] => .ok []
  | r :: rs =>
    match parseHMS r.ts with
    | none => .error .parseError
    | some t =>
      match parseAll rs with
      | .error e => .error e
      | .ok ts => .ok ({ time := t, price := r.price, vol := r.vol } :: ts)

/-- `KLineGenerator.get_k_line` with its cache: return the cached artifact
when one exists for the key; otherwise fail when no tick partitions exist,
parse and aggregate, and only after full success write the artifact.  The
first component is the cache state after the call. -/
def getKLine (w : ℕ) (parts : List (List RawTick)) (cache : Option (List Bar)) :
    Option (List Bar) × Except PyErr (List Bar) :=
  match cache with
  | some bars => (some bars, .ok bars)
  | none =>
    if parts.isEmpty then (none, .error .fileNotFound)
    else
      match parseAll parts.flatten with
      | .error e => (none, .error e)
      | .ok ticks => (some (genKLine w ticks), .ok (genKLine w ticks))

deriving instance DecidableEq for Except

/-- Two series agree on every position up to and including `t`. -/
def agreeTo (t : ℕ) (s₁ s₂ : Series) : Prop :=
  ∀ i, i ≤ t → s₁.get? i = s₂.get? i

/-- Two price lists agree on every position up to and including `t`. -/
def agreeToQ (t : ℕ) (c₁ c₂ : List ℚ) : Prop :=
  ∀ i, i ≤ t → c₁.get? i = c₂.get? i

/-- The spec's exponential-MA recurrence: `v_0 = x_0` and
`v_t = α·x_t + (1-α)·v_{t-1}`. -/
def emaSpec (α : ℚ) (xs : List ℚ) : ℕ → ℚ
  | 0 => xs.headD 0
  | n + 1 => α * xs.getD (n + 1) 0 + (1 - α) * emaSpec α xs n

/-- The trailing window of `p` values ending at position `i` of a price
list (assuming `p ≤ i+1`). -/
def trailWin (p : ℕ) (xs : List ℚ) (i : ℕ) : List ℚ :=
  (xs.take (i + 1)).drop (i + 1 - p)

/-!  ### Positional lemmas for the series primitives  -/

theorem get?_mapRange {α : Type} (f : ℕ → α) (n i : ℕ) :
    ((List.range n).map f).get? i = if i < n then some (f i) else none := by
  by_cases h : i < n
  · rw [List.get?_map, List.get?_range h, if_pos h]
    rfl
  · rw [List.get?_map, List.get?_eq_none.mpr, if_neg h]
    · rfl
    · simpa using Nat.le_of_not_lt h

theorem get?_prefixMap (F : List Val → Val) (s : Series) (i : ℕ) :
    (prefixMap F s).get? i = if i < s.length then some (F (s.take (i + 1))) else none :=
  get?_mapRange _ _ _

theorem length_prefixMap (F : List Val → Val) (s : Series) :
    (prefixMap F s).length = s.length := by
  simp [prefixMap]

theorem get?_lt_iff {α : Type} {l₁ l₂ : List α} {i : ℕ} (h : l₁.get? i = l₂.get? i) :
    i < l₁.length ↔ i < l₂.length := by
  constructor <;> intro hh <;> by_contra hc
  · have h2 : l₂.get? i = none := List.get?_eq_none.mpr (Nat.le_of_not_lt hc)
    rw [h2] at h
    have := List.get?_eq_none.mp h
    omega
  · have h2 : l₁.get? i = none := List.get?_eq_none.mpr (Nat.le_of_not_lt hc)
    rw [h2] at h
    have := List.get?_eq_none.mp h.symm
    omega

theorem take_eq_of_agreeTo {t : ℕ} {s₁ s₂ : Series} (h : agreeTo t s₁ s₂)
    {i : ℕ} (hi : i ≤ t) : s₁.take (i + 1) = s₂.take (i + 1) := by
  apply List.ext_get?
  intro n
  by_cases hn : n < i + 1
  · rw [List.get?_take hn, List.get?_take hn]
    exact h n (by omega)
  · rw [List.get?_eq_none.mpr, List.get?_eq_none.mpr] <;>
      · simp only [List.length_take]
        omega

theorem agreeTo_prefixMap (F : List Val → Val) {t : ℕ} {s₁ s₂ : Series}
    (h : agreeTo t s₁ s₂) : agreeTo t (prefixMap F s₁) (prefixMap F s₂) := by
  intro i hi
  rw [get?_prefixMap, get?_prefixMap]
  by_cases hl : i < s₁.length
  · rw [if_pos hl, if_pos ((get?_lt_iff (h i hi)).mp hl), take_eq_of_agreeTo h hi]
  · rw [if_neg hl, if_neg (fun hh => hl ((get?_lt_iff (h i hi)).mpr hh))]

theorem agreeTo_mapV (f : Val → Val) {t : ℕ} {s₁ s₂ : Series}
    (h : agreeTo t s₁ s₂) : agreeTo t (mapV f s₁) (mapV f s₂) := by
  intro i hi
  simp only [mapV, List.get?_map, h i hi]

theorem get?_zipV (f : Val → Val → Val) :
    ∀ (a b : Series) (i : ℕ),
      (zipV f a b).get? i = (a.get? i).bind (fun x => (b.get? i).map (f x))
  | [], b, i => by cases b <;> simp [zipV]
  | _ :: _, [], i => by simp [zipV]
  | x :: xs, y :: ys, 0 => by simp [zipV]
  | x :: xs, y :: ys, n + 1 => by
    simpa [zipV] using get?_zipV f xs ys n

theorem agreeTo_zipV (f : Val → Val → Val) {t : ℕ} {a₁ a₂ b₁ b₂ : Series}
    (ha : agreeTo t a₁ a₂) (hb : agreeTo t b₁ b₂) :
    agreeTo t (zipV f a₁ b₁) (zipV f a₂ b₂) := by
  intro i hi
  rw [get?_zipV, get?_zipV, ha i hi, hb i hi]

theorem agreeTo_liftS {t : ℕ} {c₁ c₂ : List ℚ} (h : agreeToQ t c₁ c₂) :
    agreeTo t (liftS c₁) (liftS c₂) := by
  intro i hi
  simp only [liftS, List.get?_map, h i hi]

theorem atV_eq_of_agreeTo {t : ℕ} {s₁ s₂ : Series} (h : agreeTo t s₁ s₂) :
    atV s₁ t = atV s₂ t := by
  unfold atV
  rw [h t (Nat.le_refl t)]

theorem agreeTo_maOf (kind : String) (p : ℕ) {t : ℕ} {c₁ c₂ : List ℚ}
    (h : agreeToQ t c₁ c₂) : agreeTo t (maOf kind p c₁) (maOf kind p c₂) := by
  unfold maOf
  split_ifs <;> exact agreeTo_prefixMap _ (agreeTo_liftS h)

theorem agreeTo_slopeOf (p : ℕ) {t : ℕ} {m₁ m₂ : Series} (h : agreeTo t m₁ m₂) :
    agreeTo t (SMAS.slopeOf p m₁) (SMAS.slopeOf p m₂) :=
  agreeTo_mapV _ (agreeTo_prefixMap _ h)

theorem agreeTo_shiftOne {t : ℕ} {s₁ s₂ : Series} (h : agreeTo t s₁ s₂) :
    agreeTo t (shiftOne s₁) (shiftOne s₂) :=
  agreeTo_prefixMap _ h

theorem agreeTo_pctSlope (p : ℕ) {t : ℕ} {m₁ m₂ : Series} (h : agreeTo t m₁ m₂) :
    agreeTo t (SMAS.pctSlope p m₁) (SMAS.pctSlope p m₂) :=
  agreeTo_zipV _ (agreeTo_slopeOf p h) (agreeTo_shiftOne h)

theorem agreeTo_iqrOf (p : ℕ) {t : ℕ} {m₁ m₂ : Series} (h : agreeTo t m₁ m₂) :
    agreeTo t (SMAS.iqrOf p m₁) (SMAS.iqrOf p m₂) :=
  agreeTo_zipV _ (agreeTo_prefixMap _ (agreeTo_pctSlope p h))
                 (agreeTo_prefixMap _ (agreeTo_pctSlope p h))

theorem agreeTo_betaPre (rsq : ℚ → ℚ) (method : String) (p : ℕ) {t : ℕ}
    {m₁ m₂ : Series} (h : agreeTo t m₁ m₂) :
    agreeTo t (SMAS.betaPre rsq method p m₁) (SMAS.betaPre rsq method p m₂) := by
  unfold SMAS.betaPre
  split_ifs
  · exact agreeTo_slopeOf p h
  · exact agreeTo_mapV _ (agreeTo_pctSlope p h)
  · exact agreeTo_zipV _
      (agreeTo_zipV _ (agreeTo_slopeOf p h) (agreeTo_prefixMap _ (agreeTo_slopeOf p h)))
      (agreeTo_prefixMap _ (agreeTo_slopeOf p h))
  · exact agreeTo_pctSlope p h

theorem smas_create_ma_valid (ps : SMASParams) (closes : List ℚ) (p : ℕ)
    (hk : ps.ma_type = "SMA" ∨ ps.ma_type = "EMA" ∨ ps.ma_type = "WMA") :
    SMAS.create_ma ps closes p = some (maOf ps.ma_type p closes) := by
  unfold SMAS.create_ma
  rw [if_pos hk]

/-- C1: No-lookahead for SlopeThreshold (SMAS): for every estimation method
in {M1, M2, M3, M4} and every MA kind, if two close-price series agree on
all positions up to and including `t`, then `calculate_signals` produces
the same signal at position `t` on both inputs (the beta series having been
shifted forward one period before thresholding). -/
theorem smas_no_lookahead (rsq : ℚ → ℚ) (ps : SMASParams) (c₁ c₂ : List ℚ) (t : ℕ)
    (hm : ps.method = "M1" ∨ ps.method = "M2" ∨ ps.method = "M3" ∨ ps.method = "M4")
    (hk : ps.ma_type = "SMA" ∨ ps.ma_type = "EMA" ∨ ps.ma_type = "WMA")
    (hag : agreeToQ t c₁ c₂) :
    (sigListOf (SMAS.calculate_signals rsq ps c₁)).get? t
      = (sigListOf (SMAS.calculate_signals rsq ps c₂)).get? t := by
  have hma := agreeTo_maOf ps.ma_type ps.ma_period (t := t) hag
  have hbeta := agreeTo_shiftOne (agreeTo_betaPre rsq ps.method ps.slope_period hma)
  have hiqr := agreeTo_iqrOf ps.slope_period hma
  have hlen := get?_lt_iff (hag t (Nat.le_refl t))
  unfold SMAS.calculate_signals
  rw [smas_create_ma_valid _ _ _ hk, smas_create_ma_valid _ _ _ hk]
  dsimp only
  unfold SMAS.calculate_beta
  rw [if_pos hm, if_pos hm]
  dsimp only
  by_cases hm4 : ps.method = "M4"
  · rw [if_pos hm4, if_pos hm4]
    dsimp only [sigListOf, SMAS.thrAt]
    rw [get?_mapRange, get?_mapRange]
    by_cases ht : t < c₁.length
    · rw [if_pos ht, if_pos (hlen.mp ht),
        atV_eq_of_agreeTo hbeta, atV_eq_of_agreeTo hiqr]
    · rw [if_neg ht, if_neg (fun hh => ht (hlen.mpr hh))]
  · rw [if_neg hm4, if_neg hm4]
    dsimp only [sigListOf]
    rw [get?_mapRange, get?_mapRange]
    by_cases ht : t < c₁.length
    · rw [if_pos ht, if_pos (hlen.mp ht), atV_eq_of_agreeTo hbeta]
    · rw [if_neg ht, if_neg (fun hh => ht (hlen.mpr hh))]

theorem valsQ_liftS (xs : List ℚ) : valsQ (liftS xs) = xs := by
  induction xs with
  | nil => rfl
  | cons x r ih => simp [valsQ, liftS] at ih ⊢

theorem allSomeB_liftS (xs : List ℚ) : allSomeB (liftS xs) = true := by
  simp [allSomeB, liftS, List.all_map]

theorem take_liftS (xs : List ℚ) (n : ℕ) :
    (liftS xs).take n = liftS (xs.take n) := by
  simp [liftS, List.map_take]

theorem drop_liftS (xs : List ℚ) (n : ℕ) :
    (liftS xs).drop n = liftS (xs.drop n) := by
  simp [liftS, List.map_drop]

theorem length_liftS (xs : List ℚ) : (liftS xs).length = xs.length := by
  simp [liftS]

theorem lastN_liftS (p : ℕ) (xs : List ℚ) :
    lastN p (liftS xs) = liftS (xs.drop (xs.length - p)) := by
  rw [lastN, length_liftS, drop_liftS]

theorem get?_eq_getD {α : Type} (l : List α) (i : ℕ) (d : α) (h : i < l.length) :
    l.get? i = some (l.getD i d) := by
  cases hg : l.get? i with
  | none =>
    have := List.get?_eq_none.mp hg
    omega
  | some a =>
    rw [List.getD_eq_get?, hg]
    rfl

theorem emaSpec_foldl (α : ℚ) (xs : List ℚ) :
    ∀ i, i < xs.length →
      (match xs.take (i + 1) with
       | [] => (none : Val)
       | x :: r => some (r.foldl (ewmStep α) x)) = some (emaSpec α xs i)
  | 0, h => by
    cases xs with
    | nil => simp at h
    | cons x r => simp [emaSpec]
  | i + 1, h => by
    have hlt : i < xs.length := by omega
    have ih := emaSpec_foldl α xs i hlt
    have htake : xs.take (i + 1 + 1) = xs.take (i + 1) ++ [xs.getD (i + 1) 0] := by
      have hg : xs[i + 1]? = some (xs.getD (i + 1) 0) := by
        rw [← List.get?_eq_getElem?]
        exact get?_eq_getD xs (i + 1) 0 h
      rw [List.take_succ, hg]
      rfl
    rw [htake]
    cases htk : xs.take (i + 1) with
    | nil =>
      have : (xs.take (i + 1)).length = i + 1 := by
        simp [List.length_take]
        omega
      rw [htk] at this
      simp at this
    | cons x r =>
      rw [htk] at ih
      simp only [List.cons_append, List.foldl_append, List.foldl_cons, List.foldl_nil]
      simp only [Option.some.injEq] at ih
      show some (ewmStep α (r.foldl (ewmStep α) x) (xs.getD (i + 1) 0)) = _
      rw [ih, emaSpec, ewmStep]

theorem ewmF_take_liftS (α : ℚ) (xs : List ℚ) (i : ℕ) (h : i < xs.length) :
    ewmF α ((liftS xs).take (i + 1)) = some (emaSpec α xs i) := by
  unfold ewmF
  rw [take_liftS, valsQ_liftS]
  exact emaSpec_foldl α xs i h

/-- C2: MovingAverageLibrary correctness: `create_ma` dispatches the three
kinds onto the rolling primitives; each output has the length of the input;
the Simple kind is the trailing-`p` arithmetic mean, undefined for the
first `p-1` positions; the Exponential kind satisfies the recurrence
`v_0 = x_0`, `v_t = α·x_t + (1-α)·v_{t-1}` with `α = 2/(p+1)`, defined from
the first position; the Weighted-linear kind is the trailing-`p` dot
product with weights `1..p` divided by their sum, undefined for the first
`p-1` positions. -/
theorem create_ma_correct (ps : SMASParams) (closes : List ℚ) (p : ℕ) (hp : 1 ≤ p) :
    ((ps.ma_type = "SMA" → SMAS.create_ma ps closes p = some (rollingMean p (liftS closes))) ∧
     (ps.ma_type = "EMA" → SMAS.create_ma ps closes p = some (ewmMean p (liftS closes))) ∧
     (ps.ma_type = "WMA" → SMAS.create_ma ps closes p = some (rollingWma p (liftS closes)))) ∧
    ((rollingMean p (liftS closes)).length = closes.length ∧
     (ewmMean p (liftS closes)).length = closes.length ∧
     (rollingWma p (liftS closes)).length = closes.length) ∧
    (∀ i, i < closes.length → i + 1 < p →
        (rollingMean p (liftS closes)).get? i = some none) ∧
    (∀ i, i < closes.length → p ≤ i + 1 →
        (rollingMean p (liftS closes)).get? i
          = some (some (sumQ (trailWin p closes i) / (p : ℚ)))) ∧
    (∀ i, i < closes.length →
        (ewmMean p (liftS closes)).get? i
          = some (some (emaSpec (2 / ((p : ℚ) + 1)) closes i))) ∧
    (∀ i, i < closes.length → i + 1 < p →
        (rollingWma p (liftS closes)).get? i = some none) ∧
    (∀ i, i < closes.length → p ≤ i + 1 →
        (rollingWma p (liftS closes)).get? i
          = some (some (dotQ (trailWin p closes i) (weightsTo p) / sumQ (weightsTo p)))) := by
  have hlen : ∀ i : ℕ, i < closes.length → ((liftS closes).take (i + 1)).length = i + 1 := by
    intro i hi
    rw [List.length_take, length_liftS]
    omega
  have hwin : ∀ i : ℕ, i < closes.length → p ≤ i + 1 →
      lastN p ((liftS closes).take (i + 1)) = liftS (trailWin p closes i) := by
    intro i hi hpi
    have hx : (closes.take (i + 1)).length - p = i + 1 - p := by
      rw [List.length_take]
      omega
    rw [take_liftS, lastN_liftS, trailWin, hx]
  refine ⟨⟨?_, ?_, ?_⟩, ⟨?_, ?_, ?_⟩, ?_, ?_, ?_, ?_, ?_⟩
  · intro hk
    unfold SMAS.create_ma maOf
    rw [if_pos (Or.inl hk), if_pos hk]
  · intro hk
    unfold SMAS.create_ma maOf
    have hne : ps.ma_type ≠ "SMA" := by rw [hk]; decide
    rw [if_pos (Or.inr (Or.inl hk)), if_neg hne, if_pos hk]
  · intro hk
    unfold SMAS.create_ma maOf
    have h1 : ps.ma_type ≠ "SMA" := by rw [hk]; decide
    have h2 : ps.ma_type ≠ "EMA" := by rw [hk]; decide
    rw [if_pos (Or.inr (Or.inr hk)), if_neg h1, if_neg h2]
  · rw [rollingMean, length_prefixMap, length_liftS]
  · rw [ewmMean, length_prefixMap, length_liftS]
  · rw [rollingWma, length_prefixMap, length_liftS]
  · intro i hi hip
    rw [rollingMean, get?_prefixMap, if_pos (by rw [length_liftS]; exact hi)]
    unfold meanF
    rw [if_neg]
    rintro ⟨h1, -⟩
    rw [hlen i hi] at h1
    omega
  · intro i hi hpi
    rw [rollingMean, get?_prefixMap, if_pos (by rw [length_liftS]; exact hi)]
    unfold meanF
    rw [if_pos ⟨by rw [hlen i hi]; exact hpi, by rw [hwin i hi hpi]; exact allSomeB_liftS _⟩,
      hwin i hi hpi, valsQ_liftS]
  · intro i hi
    rw [ewmMean, get?_prefixMap, if_pos (by rw [length_liftS]; exact hi),
      ewmF_take_liftS _ _ _ hi]
  · intro i hi hip
    rw [rollingWma, get?_prefixMap, if_pos (by rw [length_liftS]; exact hi)]
    unfold wmaF
    rw [if_neg]
    rintro ⟨h1, -⟩
    rw [hlen i hi] at h1
    omega
  · intro i hi hpi
    rw [rollingWma, get?_prefixMap, if_pos (by rw [length_liftS]; exact hi)]
    unfold wmaF
    rw [if_pos ⟨by rw [hlen i hi]; exact hpi, by rw [hwin i hi hpi]; exact allSomeB_liftS _⟩,
      hwin i hi hpi, valsQ_liftS]

theorem create_ma_correct_witness :
    1 ≤ 2 ∧
    ((("SMA" : String) = "SMA" →
        SMAS.create_ma ⟨"M1", "SMA", 2, 1, Thresh.scl 0, none, none⟩ [1, 3, 5] 2
          = some (rollingMean 2 (liftS [1, 3, 5]))) ∧
     (("SMA" : String) = "EMA" →
        SMAS.create_ma ⟨"M1", "SMA", 2, 1, Thresh.scl 0, none, none⟩ [1, 3, 5] 2
          = some (ewmMean 2 (liftS [1, 3, 5]))) ∧
     (("SMA" : String) = "WMA" →
        SMAS.create_ma ⟨"M1", "SMA", 2, 1, Thresh.scl 0, none, none⟩ [1, 3, 5] 2
          = some (rollingWma 2 (liftS [1, 3, 5])))) ∧
    ((rollingMean 2 (liftS [1, 3, 5])).length = 3 ∧
     (ewmMean 2 (liftS [1, 3, 5])).length = 3 ∧
     (rollingWma 2 (liftS [1, 3, 5])).length = 3) ∧
    (∀ i, i < 3 → i + 1 < 2 →
        (rollingMean 2 (liftS [1, 3, 5])).get? i = some none) ∧
    (∀ i, i < 3 → 2 ≤ i + 1 →
        (rollingMean 2 (liftS [1, 3, 5])).get? i
          = some (some (sumQ (trailWin 2 [1, 3, 5] i) / (2 : ℚ)))) ∧
    (∀ i, i < 3 →
        (ewmMean 2 (liftS [1, 3, 5])).get? i
          = some (some (emaSpec (2 / ((2 : ℚ) + 1)) [1, 3, 5] i))) ∧
    (∀ i, i < 3 → i + 1 < 2 →
        (rollingWma 2 (liftS [1, 3, 5])).get? i = some none) ∧
    (∀ i, i < 3 → 2 ≤ i + 1 →
        (rollingWma 2 (liftS [1, 3, 5])).get? i
          = some (some (dotQ (trailWin 2 [1, 3, 5] i) (weightsTo 2) / sumQ (weightsTo 2)))) :=
  ⟨by decide,
   create_ma_correct ⟨"M1", "SMA", 2, 1, Thresh.scl 0, none, none⟩ [1, 3, 5] 2 (by decide)⟩

theorem length_maOf (kind : String) (p : ℕ) (closes : List ℚ) :
    (maOf kind p closes).length = closes.length := by
  unfold maOf
  split_ifs <;> simp [rollingMean, ewmMean, rollingWma, length_prefixMap, length_liftS]

theorem length_mapV (f : Val → Val) (s : Series) : (mapV f s).length = s.length := by
  simp [mapV]

theorem length_zipV (f : Val → Val → Val) (a b : Series) :
    (zipV f a b).length = min a.length b.length := by
  simp [zipV]

theorem length_pctSlope (p : ℕ) (m : Series) :
    (SMAS.pctSlope p m).length = m.length := by
  rw [SMAS.pctSlope, length_zipV, SMAS.slopeOf, length_mapV, diffS,
    length_prefixMap, shiftOne, length_prefixMap, Nat.min_self]

theorem betaPre_m4 (rsq : ℚ → ℚ) (p : ℕ) (m : Series) :
    SMAS.betaPre rsq "M4" p m = SMAS.pctSlope p m := by
  unfold SMAS.betaPre
  rw [if_neg (by decide), if_neg (by decide), if_neg (by decide)]

theorem smas_run_m4 (rsq : ℚ → ℚ) (ps : SMASParams) (closes : List ℚ)
    (hm4 : ps.method = "M4")
    (hk : ps.ma_type = "SMA" ∨ ps.ma_type = "EMA" ∨ ps.ma_type = "WMA") :
    SMAS.calculate_signals rsq ps closes =
      .ok ({ ps with
              ma := some (maOf ps.ma_type ps.ma_period closes)
              threshold := Thresh.ser (SMAS.iqrOf ps.slope_period
                (maOf ps.ma_type ps.ma_period closes))
              beta := some (shiftOne (SMAS.pctSlope ps.slope_period
                (maOf ps.ma_type ps.ma_period closes))) },
            (List.range closes.length).map (fun i =>
              SMAS.sigAt
                (atV (shiftOne (SMAS.pctSlope ps.slope_period
                  (maOf ps.ma_type ps.ma_period closes))) i)
                (atV (SMAS.iqrOf ps.slope_period
                  (maOf ps.ma_type ps.ma_period closes)) i))) := by
  unfold SMAS.calculate_signals
  rw [smas_create_ma_valid _ _ _ hk]
  dsimp only
  unfold SMAS.calculate_beta
  rw [if_pos (Or.inr (Or.inr (Or.inr hm4))), if_pos hm4]
  dsimp only [SMAS.thrAt]
  rw [hm4, betaPre_m4]

/-- C4: M4 threshold override: when the estimation method is M4, the beta
series is the unscaled percentage slope (M2 without the ×100 factor), the
configured scalar threshold is irrelevant to the emitted signals, the
threshold field is replaced by the expanding-IQR series, and the effective
threshold at each position `i` is `q3 - q1` of the beta series over all
history up to and including `i`. -/
theorem m4_threshold_override (rsq : ℚ → ℚ) (ps : SMASParams) (closes : List ℚ)
    (hm4 : ps.method = "M4")
    (hk : ps.ma_type = "SMA" ∨ ps.ma_type = "EMA" ∨ ps.ma_type = "WMA") :
    (SMAS.calculate_signals rsq ps closes =
      .ok ({ ps with
              ma := some (maOf ps.ma_type ps.ma_period closes)
              threshold := Thresh.ser (SMAS.iqrOf ps.slope_period
                (maOf ps.ma_type ps.ma_period closes))
              beta := some (shiftOne (SMAS.pctSlope ps.slope_period
                (maOf ps.ma_type ps.ma_period closes))) },
            (List.range closes.length).map (fun i =>
              SMAS.sigAt
                (atV (shiftOne (SMAS.pctSlope ps.slope_period
                  (maOf ps.ma_type ps.ma_period closes))) i)
                (atV (SMAS.iqrOf ps.slope_period
                  (maOf ps.ma_type ps.ma_period closes)) i)))) ∧
    (∀ th₁ th₂ : Thresh,
      sigListOf (SMAS.calculate_signals rsq { ps with threshold := th₁ } closes)
        = sigListOf (SMAS.calculate_signals rsq { ps with threshold := th₂ } closes)) ∧
    (∀ i, i < closes.length →
      (SMAS.iqrOf ps.slope_period (maOf ps.ma_type ps.ma_period closes)).get? i
        = some (vsub
            (quantF (3 / 4) ((SMAS.pctSlope ps.slope_period
              (maOf ps.ma_type ps.ma_period closes)).take (i + 1)))
            (quantF (1 / 4) ((SMAS.pctSlope ps.slope_period
              (maOf ps.ma_type ps.ma_period closes)).take (i + 1))))) := by
  refine ⟨smas_run_m4 rsq ps closes hm4 hk, ?_, ?_⟩
  · intro th₁ th₂
    rw [smas_run_m4 rsq { ps with threshold := th₁ } closes hm4 hk,
      smas_run_m4 rsq { ps with threshold := th₂ } closes hm4 hk]
  · intro i hi
    have hblen : i < (SMAS.pctSlope ps.slope_period
        (maOf ps.ma_type ps.ma_period closes)).length := by
      rw [length_pctSlope, length_maOf]
      exact hi
    rw [SMAS.iqrOf, get?_zipV, expandingQuantile, expandingQuantile,
      get?_prefixMap, get?_prefixMap, if_pos hblen, if_pos hblen]
    rfl

theorem m4_threshold_override_witness :
    (("M4" : String) = "M4" ∧
     (("SMA" : String) = "SMA" ∨ ("SMA" : String) = "EMA" ∨ ("SMA" : String) = "WMA")) ∧
    ((SMAS.calculate_signals (fun q => q) ⟨"M4", "SMA", 1, 1, Thresh.scl 0, none, none⟩ [1, 2, 4] =
      .ok ({ (⟨"M4", "SMA", 1, 1, Thresh.scl 0, none, none⟩ : SMASParams) with
              ma := some (maOf "SMA" 1 [1, 2, 4])
              threshold := Thresh.ser (SMAS.iqrOf 1 (maOf "SMA" 1 [1, 2, 4]))
              beta := some (shiftOne (SMAS.pctSlope 1 (maOf "SMA" 1 [1, 2, 4]))) },
            (List.range (3 : ℕ)).map (fun i =>
              SMAS.sigAt
                (atV (shiftOne (SMAS.pctSlope 1 (maOf "SMA" 1 [1, 2, 4]))) i)
                (atV (SMAS.iqrOf 1 (maOf "SMA" 1 [1, 2, 4])) i)))) ∧
    (∀ th₁ th₂ : Thresh,
      sigListOf (SMAS.calculate_signals (fun q => q)
          { (⟨"M4", "SMA", 1, 1, Thresh.scl 0, none, none⟩ : SMASParams) with threshold := th₁ } [1, 2, 4])
        = sigListOf (SMAS.calculate_signals (fun q => q)
          { (⟨"M4", "SMA", 1, 1, Thresh.scl 0, none, none⟩ : SMASParams) with threshold := th₂ } [1, 2, 4])) ∧
    (∀ i, i < (3 : ℕ) →
      (SMAS.iqrOf 1 (maOf "SMA" 1 [1, 2, 4])).get? i
        = some (vsub
            (quantF (3 / 4) ((SMAS.pctSlope 1 (maOf "SMA" 1 [1, 2, 4])).take (i + 1)))
            (quantF (1 / 4) ((SMAS.pctSlope 1 (maOf "SMA" 1 [1, 2, 4])).take (i + 1)))))) :=
  ⟨⟨rfl, Or.inl rfl⟩,
   m4_threshold_override (fun q => q) ⟨"M4", "SMA", 1, 1, Thresh.scl 0, none, none⟩
     [1, 2, 4] rfl (Or.inl rfl)⟩

theorem smas_create_ma_invalid (ps : SMASParams) (closes : List ℚ) (p : ℕ)
    (hk : ¬(ps.ma_type = "SMA" ∨ ps.ma_type = "EMA" ∨ ps.ma_type = "WMA")) :
    SMAS.create_ma ps closes p = none := by
  unfold SMAS.create_ma
  rw [if_neg hk]

theorem vlt_none_left (b : Val) : vlt none b = false := by
  cases b <;> rfl

theorem vlt_none_right (a : Val) : vlt a none = false := by
  cases a <;> rfl

theorem vle_none_left (b : Val) : vle none b = false := by
  cases b <;> rfl

theorem vle_none_right (a : Val) : vle a none = false := by
  cases a <;> rfl

theorem smas_run_shape (rsq : ℚ → ℚ) (ps : SMASParams) (closes : List ℚ)
    (p2 : SMASParams) (sigs : List ℤ)
    (hok : SMAS.calculate_signals rsq ps closes = .ok (p2, sigs)) :
    (p2.method = ps.method ∧ p2.ma_type = ps.ma_type ∧
     p2.ma_period = ps.ma_period ∧ p2.slope_period = ps.slope_period) ∧
    (ps.method ≠ "M4" → p2.threshold = ps.threshold) ∧
    p2.beta = some (shiftOne (SMAS.betaPre rsq ps.method ps.slope_period
      (maOf ps.ma_type ps.ma_period closes))) ∧
    sigs = (List.range closes.length).map (fun i =>
      SMAS.sigAt
        (atV (shiftOne (SMAS.betaPre rsq ps.method ps.slope_period
          (maOf ps.ma_type ps.ma_period closes))) i)
        (SMAS.thrAt p2.threshold i)) := by
  unfold SMAS.calculate_signals at hok
  by_cases hvk : ps.ma_type = "SMA" ∨ ps.ma_type = "EMA" ∨ ps.ma_type = "WMA"
  · rw [smas_create_ma_valid _ _ _ hvk] at hok
    dsimp only at hok
    unfold SMAS.calculate_beta at hok
    by_cases hvm : ps.method = "M1" ∨ ps.method = "M2" ∨ ps.method = "M3" ∨ ps.method = "M4"
    · rw [if_pos hvm] at hok
      by_cases hm4 : ps.method = "M4"
      · rw [if_pos hm4] at hok
        dsimp only at hok
        injection hok with h
        rw [Prod.mk.injEq] at h
        obtain ⟨h1, h2⟩ := h
        subst h1
        subst h2
        exact ⟨⟨rfl, rfl, rfl, rfl⟩, fun hne => absurd hm4 hne, rfl, rfl⟩
      · rw [if_neg hm4] at hok
        dsimp only at hok
        injection hok with h
        rw [Prod.mk.injEq] at h
        obtain ⟨h1, h2⟩ := h
        subst h1
        subst h2
        exact ⟨⟨rfl, rfl, rfl, rfl⟩, fun _ => rfl, rfl, rfl⟩
    · rw [if_neg hvm] at hok
      exact absurd hok (by simp)
  · rw [smas_create_ma_invalid _ _ _ hvk] at hok
    exact absurd hok (by simp)

/-- C7 counterexample: the claim that `calculate_signals` leaves every
configuration field (in particular the threshold) unchanged is false: the
SMAS run with method M4 overwrites the scalar threshold with the computed
IQR series (and stores the computed ma and beta on the params object). -/
theorem config_mutation_cex :
    SMAS.calculate_signals (fun q => q) ⟨"M4", "SMA", 1, 1, Thresh.scl 0, none, none⟩ [1, 2, 4]
      = .ok ({ method := "M4", ma_type := "SMA", ma_period := 1, slope_period := 1,
               threshold := Thresh.ser [none, some 0, some 0],
               ma := some [some 1, some 2, some 4],
               beta := some [none, none, some 1] }, [0, 0, 1]) ∧
    Thresh.ser [none, some 0, some 0] ≠ Thresh.scl 0 :=
  ⟨by with_unfolding_all decide, by decide⟩

/-- C7 amended: for successful SMAS runs the identity-like configuration
fields (method, ma_type, ma_period, slope_period) are unchanged, and for
methods other than M4 the threshold is unchanged as well; M4 overwrites the
threshold field (and the run stores the computed ma and beta series on the
params object). -/
theorem config_fields_preserved (rsq : ℚ → ℚ) (ps : SMASParams) (closes : List ℚ)
    (p2 : SMASParams) (sigs : List ℤ)
    (hok : SMAS.calculate_signals rsq ps closes = .ok (p2, sigs)) :
    p2.method = ps.method ∧ p2.ma_type = ps.ma_type ∧
    p2.ma_period = ps.ma_period ∧ p2.slope_period = ps.slope_period ∧
    (ps.method ≠ "M4" → p2.threshold = ps.threshold) := by
  obtain ⟨⟨h1, h2, h3, h4⟩, h5, -, -⟩ := smas_run_shape rsq ps closes p2 sigs hok
  exact ⟨h1, h2, h3, h4, h5⟩

theorem config_fields_preserved_witness :
    SMAS.calculate_signals (fun q => q) ⟨"M1", "SMA", 1, 1, Thresh.scl 0, none, none⟩ [1, 2]
      = .ok ({ method := "M1", ma_type := "SMA", ma_period := 1, slope_period := 1,
               threshold := Thresh.scl 0,
               ma := some [some 1, some 2],
               beta := some [none, none] }, [0, 0]) ∧
    (({ method := "M1", ma_type := "SMA", ma_period := 1, slope_period := 1,
        threshold := Thresh.scl 0, ma := some [some 1, some 2],
        beta := some [none, none] } : SMASParams).method = "M1" ∧
     ({ method := "M1", ma_type := "SMA", ma_period := 1, slope_period := 1,
        threshold := Thresh.scl 0, ma := some [some 1, some 2],
        beta := some [none, none] } : SMASParams).ma_type = "SMA" ∧
     ({ method := "M1", ma_type := "SMA", ma_period := 1, slope_period := 1,
        threshold := Thresh.scl 0, ma := some [some 1, some 2],
        beta := some [none, none] } : SMASParams).ma_period = 1 ∧
     ({ method := "M1", ma_type := "SMA", ma_period := 1, slope_period := 1,
        threshold := Thresh.scl 0, ma := some [some 1, some 2],
        beta := some [none, none] } : SMASParams).slope_period = 1 ∧
     (("M1" : String) ≠ "M4" →
       ({ method := "M1", ma_type := "SMA", ma_period := 1, slope_period := 1,
          threshold := Thresh.scl 0, ma := some [some 1, some 2],
          beta := some [none, none] } : SMASParams).threshold = Thresh.scl 0)) :=
  ⟨by with_unfolding_all decide,
   config_fields_preserved (fun q => q) ⟨"M1", "SMA", 1, 1, Thresh.scl 0, none, none⟩
     [1, 2]
     ⟨"M1", "SMA", 1, 1, Thresh.scl 0, some [some 1, some 2], some [none, none]⟩
     [0, 0] (by with_unfolding_all decide)⟩

theorem vgt_none_right (a : Val) : vgt a none = false :=
  vlt_none_left a

theorem vgt_none_left (b : Val) : vgt none b = false :=
  vlt_none_right b

theorem sigAt_none (thr : Val) : SMAS.sigAt none thr = 0 := by
  unfold SMAS.sigAt vgt
  rw [vlt_none_left, vlt_none_right]
  rfl

/-- C6 counterexample: the claim that undefined leading positions carry a
distinct undefined marker and are never coerced to 0 is false: with period
5 on a two-bar series the WMA is undefined at position 0, yet the emitted
signal there is the plain integer 0. -/
theorem leading_zero_cex :
    SMAC.calculate_signals ⟨5⟩ [1, 2] = [0, 0] ∧
    atV (SMAC.wma ⟨5⟩ [1, 2]) 0 = none ∧
    (SMAC.calculate_signals ⟨5⟩ [1, 2]).get? 0 = some 0 :=
  ⟨by decide, by decide, by decide⟩

/-- C6 amended: the signal series stays aligned 1:1 with the input, but
positions whose underlying MA (SMAC) or shifted beta (SMAS) is undefined
carry the integer signal 0 (the hold value) — comparisons against an
undefined value are false and the series is initialised to 0 — rather than
a distinct undefined marker. -/
theorem leading_positions_zero (pc : SMACParams) (cl : List ℚ)
    (rsq : ℚ → ℚ) (ps : SMASParams) (closes : List ℚ)
    (p2 : SMASParams) (sigs : List ℤ)
    (hok : SMAS.calculate_signals rsq ps closes = .ok (p2, sigs)) :
    ((SMAC.calculate_signals pc cl).length = cl.length ∧
     (∀ i, i < cl.length → atV (SMAC.wma pc cl) i = none →
        (SMAC.calculate_signals pc cl).get? i = some 0)) ∧
    (sigs.length = closes.length ∧
     (∀ i bs, p2.beta = some bs → atV bs i = none → i < closes.length →
        sigs.get? i = some 0)) := by
  obtain ⟨-, -, hbeta, hsigs⟩ := smas_run_shape rsq ps closes p2 sigs hok
  refine ⟨⟨?_, ?_⟩, ?_, ?_⟩
  · simp [SMAC.calculate_signals, crossSigs]
  · intro i hi hnone
    unfold SMAC.calculate_signals crossSigs
    rw [get?_mapRange, if_pos hi, hnone, vlt_none_right, vgt_none_right,
      if_neg (by simp), if_neg (by simp)]
  · rw [hsigs]
    simp
  · intro i bs hbs hnone hi
    rw [hbeta] at hbs
    injection hbs with hb
    subst hb
    rw [hsigs, get?_mapRange, if_pos hi, hnone, sigAt_none]

theorem leading_positions_zero_witness :
    SMAS.calculate_signals (fun q => q) ⟨"M1", "SMA", 1, 1, Thresh.scl 0, none, none⟩ [1, 2]
      = .ok (⟨"M1", "SMA", 1, 1, Thresh.scl 0, some [some 1, some 2], some [none, none]⟩, [0, 0]) ∧
    (((SMAC.calculate_signals ⟨5⟩ [1, 2]).length = 2 ∧
      (∀ i, i < 2 → atV (SMAC.wma ⟨5⟩ [1, 2]) i = none →
         (SMAC.calculate_signals ⟨5⟩ [1, 2]).get? i = some 0)) ∧
     (([0, 0] : List ℤ).length = 2 ∧
      (∀ i bs,
        (⟨"M1", "SMA", 1, 1, Thresh.scl 0, some [some 1, some 2],
          some [none, none]⟩ : SMASParams).beta = some bs →
        atV bs i = none → i < 2 → ([0, 0] : List ℤ).get? i = some 0))) :=
  ⟨by with_unfolding_all decide,
   leading_positions_zero ⟨5⟩ [1, 2] (fun q => q)
     ⟨"M1", "SMA", 1, 1, Thresh.scl 0, none, none⟩ [1, 2]
     ⟨"M1", "SMA", 1, 1, Thresh.scl 0, some [some 1, some 2], some [none, none]⟩
     [0, 0] (by with_unfolding_all decide)⟩

/-- C5 counterexample: the claim that every strategy variant fails with
`UnsupportedConfig` on an unknown MA kind is false: SMAS's `create_ma`
silently returns `None` for an unknown kind, so its signal computation
fails with `AttributeError`, not with the `UnsupportedConfig` error. -/
theorem unknown_kind_cex :
    SMAS.create_ma ⟨"M1", "XX", 1, 1, Thresh.scl 0, none, none⟩ [1, 2] 1 = none ∧
    SMAS.calculate_signals (fun q => q) ⟨"M1", "XX", 1, 1, Thresh.scl 0, none, none⟩ [1, 2]
      = .error .attributeError ∧
    PyErr.attributeError ≠ PyErr.valueError "不支援的 MA 類型" :=
  ⟨by decide, by decide, by decide⟩

/-- C5 amended: on an unknown MA kind only GMMA and TMAC raise the
`UnsupportedConfig` `ValueError`; DMAC leaves its MA locals unbound and
fails with `UnboundLocalError`; SMAS's `create_ma` silently returns `None`
and the run fails with `AttributeError`; SMAC performs no kind dispatch at
all.  SMAS does raise the `UnsupportedConfig` `ValueError` for an unknown
slope-estimation method. -/
theorem unknown_kind_behavior (kind : String) (closes : List ℚ) (oob : Val)
    (pd : DMACParams) (pt : TMACParams) (pg : GMMAParams) (psm : SMASParams)
    (psv : SMASParams) (rsq : ℚ → ℚ)
    (hk : ¬(kind = "SMA" ∨ kind = "EMA" ∨ kind = "WMA"))
    (hd : pd.ma_type = kind) (ht : pt.ma_type = kind) (hg : pg.ma_type = kind)
    (hgne : pg.short_periods ≠ [] ∨ pg.long_periods ≠ [])
    (hs : psm.ma_type = kind)
    (hvk : psv.ma_type = "SMA" ∨ psv.ma_type = "EMA" ∨ psv.ma_type = "WMA")
    (hvm : ¬(psv.method = "M1" ∨ psv.method = "M2" ∨ psv.method = "M3" ∨ psv.method = "M4")) :
    DMAC.calculate_signals pd closes = .error .unboundLocalError ∧
    TMAC.calculate_signals pt closes = .error (.valueError "不支援的 MA 類型") ∧
    GMMA.calculate_signals oob pg closes = .error (.valueError "不支援的 MA 類型") ∧
    SMAS.create_ma psm closes psm.ma_period = none ∧
    SMAS.calculate_signals rsq psm closes = .error .attributeError ∧
    SMAS.calculate_signals rsq psv closes
      = .error (.valueError ("不支援的計算方式: " ++ psv.method)) := by
  refine ⟨?_, ?_, ?_, ?_, ?_, ?_⟩
  · unfold DMAC.calculate_signals
    rw [if_neg (hd ▸ hk)]
  · unfold TMAC.calculate_signals
    rw [if_neg (ht ▸ hk)]
  · unfold GMMA.calculate_signals
    rw [if_neg (hg ▸ hk), if_neg (by rcases hgne with h | h <;> simp [h])]
  · exact smas_create_ma_invalid psm closes psm.ma_period (hs ▸ hk)
  · unfold SMAS.calculate_signals
    rw [smas_create_ma_invalid psm closes psm.ma_period (hs ▸ hk)]
  · unfold SMAS.calculate_signals
    rw [smas_create_ma_valid _ _ _ hvk]
    dsimp only
    unfold SMAS.calculate_beta
    rw [if_neg hvm]

theorem unknown_kind_behavior_witness :
    (¬(("XX" : String) = "SMA" ∨ ("XX" : String) = "EMA" ∨ ("XX" : String) = "WMA")) ∧
    (DMAC.calculate_signals ⟨"XX", 2, 3⟩ [1, 2] = .error .unboundLocalError ∧
     TMAC.calculate_signals ⟨"XX", 1, 2, 3⟩ [1, 2] = .error (.valueError "不支援的 MA 類型") ∧
     GMMA.calculate_signals none ⟨"XX", [2], [3]⟩ [1, 2] = .error (.valueError "不支援的 MA 類型") ∧
     SMAS.create_ma ⟨"M1", "XX", 1, 1, Thresh.scl 0, none, none⟩ [1, 2]
       (⟨"M1", "XX", 1, 1, Thresh.scl 0, none, none⟩ : SMASParams).ma_period = none ∧
     SMAS.calculate_signals (fun q => q) ⟨"M1", "XX", 1, 1, Thresh.scl 0, none, none⟩ [1, 2]
       = .error .attributeError ∧
     SMAS.calculate_signals (fun q => q) ⟨"M9", "SMA", 1, 1, Thresh.scl 0, none, none⟩ [1, 2]
       = .error (.valueError ("不支援的計算方式: " ++ "M9"))) :=
  ⟨by decide,
   unknown_kind_behavior "XX" [1, 2] none ⟨"XX", 2, 3⟩ ⟨"XX", 1, 2, 3⟩ ⟨"XX", [2], [3]⟩
     ⟨"M1", "XX", 1, 1, Thresh.scl 0, none, none⟩
     ⟨"M9", "SMA", 1, 1, Thresh.scl 0, none, none⟩ (fun q => q)
     (by decide) rfl rfl rfl (Or.inl (by decide)) rfl (Or.inl rfl) (by decide)⟩

theorem vlt_some_some (a b : ℚ) : vlt (some a) (some b) = decide (a < b) := rfl

theorem vgt_some_some (a b : ℚ) : vgt (some a) (some b) = decide (b < a) := rfl

theorem vle_some_some (a b : ℚ) : vle (some a) (some b) = decide (a ≤ b) := rfl

theorem vge_some_some (a b : ℚ) : vge (some a) (some b) = decide (b ≤ a) := rfl

theorem qm_le_self (x : ℚ) (r : List ℚ) : r.foldl min x ≤ x := by
  induction r generalizing x with
  | nil => exact le_refl x
  | cons z r ih => exact le_trans (ih (min x z)) (min_le_left x z)

theorem self_le_qM (x : ℚ) (r : List ℚ) : x ≤ r.foldl max x := by
  induction r generalizing x with
  | nil => exact le_refl x
  | cons z r ih => exact le_trans (le_max_left x z) (ih (max x z))

theorem qm_le_all (x : ℚ) (r : List ℚ) : ∀ y ∈ x :: r, r.foldl min x ≤ y := by
  induction r generalizing x with
  | nil =>
    intro y hy
    rw [List.mem_singleton] at hy
    subst hy
    exact le_refl y
  | cons z r ih =>
    intro y hy
    rcases List.mem_cons.mp hy with rfl | hy2
    · exact le_trans (qm_le_self (min y z) r) (min_le_left y z)
    · rcases List.mem_cons.mp hy2 with rfl | hy3
      · exact le_trans (qm_le_self (min x y) r) (min_le_right x y)
      · exact ih (min x z) y (List.mem_cons_of_mem _ hy3)

theorem all_le_qM (x : ℚ) (r : List ℚ) : ∀ y ∈ x :: r, y ≤ r.foldl max x := by
  induction r generalizing x with
  | nil =>
    intro y hy
    rw [List.mem_singleton] at hy
    subst hy
    exact le_refl y
  | cons z r ih =>
    intro y hy
    rcases List.mem_cons.mp hy with rfl | hy2
    · exact le_trans (le_max_left y z) (self_le_qM (max y z) r)
    · rcases List.mem_cons.mp hy2 with rfl | hy3
      · exact le_trans (le_max_right x y) (self_le_qM (max x y) r)
      · exact ih (max x z) y (List.mem_cons_of_mem _ hy3)

theorem qm_mem (x : ℚ) (r : List ℚ) : r.foldl min x ∈ x :: r := by
  induction r generalizing x with
  | nil => exact List.mem_singleton_self x
  | cons z r ih =>
    have h := ih (min x z)
    rcases List.mem_cons.mp h with h2 | h2
    · rcases min_choice x z with h3 | h3
      · rw [List.foldl_cons, h2, h3]
        exact List.mem_cons_self x _
      · rw [List.foldl_cons, h2, h3]
        exact List.mem_cons_of_mem _ (List.mem_cons_self z _)
    · rw [List.foldl_cons]
      exact List.mem_cons_of_mem _ (List.mem_cons_of_mem _ h2)

theorem qM_mem (x : ℚ) (r : List ℚ) : r.foldl max x ∈ x :: r := by
  induction r generalizing x with
  | nil => exact List.mem_singleton_self x
  | cons z r ih =>
    have h := ih (max x z)
    rcases List.mem_cons.mp h with h2 | h2
    · rcases max_choice x z with h3 | h3
      · rw [List.foldl_cons, h2, h3]
        exact List.mem_cons_self x _
      · rw [List.foldl_cons, h2, h3]
        exact List.mem_cons_of_mem _ (List.mem_cons_self z _)
    · rw [List.foldl_cons]
      exact List.mem_cons_of_mem _ (List.mem_cons_of_mem _ h2)

theorem allSomeB_eq_liftS (vs : List Val) (h : allSomeB vs = true) :
    vs = liftS (valsQ vs) := by
  induction vs with
  | nil => rfl
  | cons v r ih =>
    cases v with
    | none => simp [allSomeB] at h
    | some q =>
      have h2 : allSomeB r = true := by simpa [allSomeB] using h
      simp only [valsQ, List.filterMap_cons, liftS, List.map_cons]
      exact congrArg (some q :: ·) (ih h2)

theorem optMinL_liftS (qs : List ℚ) : optMinL (liftS qs) = qMinD qs := by
  unfold optMinL
  rw [if_pos (allSomeB_liftS qs), valsQ_liftS]

theorem optMaxL_liftS (qs : List ℚ) : optMaxL (liftS qs) = qMaxD qs := by
  unfold optMaxL
  rw [if_pos (allSomeB_liftS qs), valsQ_liftS]

theorem val_allpairs_gt (V₁ V₂ : List Val) (h₁ : V₁ ≠ []) (h₂ : V₂ ≠ [])
    (hS₁ : allSomeB V₁ = true) (hS₂ : allSomeB V₂ = true) :
    (∀ a ∈ V₁, ∀ b ∈ V₂, vgt a b = true) ↔ vgt (optMinL V₁) (optMaxL V₂) = true := by
  obtain ⟨sq, rfl⟩ : ∃ sq, V₁ = liftS sq := ⟨valsQ V₁, allSomeB_eq_liftS V₁ hS₁⟩
  obtain ⟨lq, rfl⟩ : ∃ lq, V₂ = liftS lq := ⟨valsQ V₂, allSomeB_eq_liftS V₂ hS₂⟩
  rw [optMinL_liftS, optMaxL_liftS]
  cases sq with
  | nil => exact absurd rfl h₁
  | cons x r =>
    cases lq with
    | nil => exact absurd rfl h₂
    | cons y t =>
      show _ ↔ vgt (some (r.foldl min x)) (some (t.foldl max y)) = true
      rw [vgt_some_some, decide_eq_true_eq]
      constructor
      · intro h
        have := h (some (r.foldl min x)) (List.mem_map_of_mem some (qm_mem x r))
          (some (t.foldl max y)) (List.mem_map_of_mem some (qM_mem y t))
        rw [vgt_some_some, decide_eq_true_eq] at this
        exact this
      · intro h a ha b hb
        obtain ⟨qa, hqa, rfl⟩ := List.mem_map.mp ha
        obtain ⟨qb, hqb, rfl⟩ := List.mem_map.mp hb
        rw [vgt_some_some, decide_eq_true_eq]
        exact lt_of_lt_of_le (lt_of_le_of_lt (all_le_qM y t qb hqb) h) (qm_le_all x r qa hqa)

theorem val_anypairs_le (V₁ V₂ : List Val) (h₁ : V₁ ≠ []) (h₂ : V₂ ≠ [])
    (hS₁ : allSomeB V₁ = true) (hS₂ : allSomeB V₂ = true) :
    (∃ a ∈ V₁, ∃ b ∈ V₂, vle a b = true) ↔ vle (optMinL V₁) (optMaxL V₂) = true := by
  obtain ⟨sq, rfl⟩ : ∃ sq, V₁ = liftS sq := ⟨valsQ V₁, allSomeB_eq_liftS V₁ hS₁⟩
  obtain ⟨lq, rfl⟩ : ∃ lq, V₂ = liftS lq := ⟨valsQ V₂, allSomeB_eq_liftS V₂ hS₂⟩
  rw [optMinL_liftS, optMaxL_liftS]
  cases sq with
  | nil => exact absurd rfl h₁
  | cons x r =>
    cases lq with
    | nil => exact absurd rfl h₂
    | cons y t =>
      show _ ↔ vle (some (r.foldl min x)) (some (t.foldl max y)) = true
      rw [vle_some_some, decide_eq_true_eq]
      constructor
      · rintro ⟨a, ha, b, hb, hab⟩
        obtain ⟨qa, hqa, rfl⟩ := List.mem_map.mp ha
        obtain ⟨qb, hqb, rfl⟩ := List.mem_map.mp hb
        rw [vle_some_some, decide_eq_true_eq] at hab
        exact le_trans (qm_le_all x r qa hqa) (le_trans hab (all_le_qM y t qb hqb))
      · intro h
        refine ⟨some (r.foldl min x), List.mem_map_of_mem some (qm_mem x r),
          some (t.foldl max y), List.mem_map_of_mem some (qM_mem y t), ?_⟩
        rw [vle_some_some, decide_eq_true_eq]
        exact h

theorem val_allpairs_lt (V₁ V₂ : List Val) (h₁ : V₁ ≠ []) (h₂ : V₂ ≠ [])
    (hS₁ : allSomeB V₁ = true) (hS₂ : allSomeB V₂ = true) :
    (∀ a ∈ V₁, ∀ b ∈ V₂, vlt a b = true) ↔ vlt (optMaxL V₁) (optMinL V₂) = true := by
  obtain ⟨sq, rfl⟩ : ∃ sq, V₁ = liftS sq := ⟨valsQ V₁, allSomeB_eq_liftS V₁ hS₁⟩
  obtain ⟨lq, rfl⟩ : ∃ lq, V₂ = liftS lq := ⟨valsQ V₂, allSomeB_eq_liftS V₂ hS₂⟩
  rw [optMinL_liftS, optMaxL_liftS]
  cases sq with
  | nil => exact absurd rfl h₁
  | cons x r =>
    cases lq with
    | nil => exact absurd rfl h₂
    | cons y t =>
      show _ ↔ vlt (some (r.foldl max x)) (some (t.foldl min y)) = true
      rw [vlt_some_some, decide_eq_true_eq]
      constructor
      · intro h
        have := h (some (r.foldl max x)) (List.mem_map_of_mem some (qM_mem x r))
          (some (t.foldl min y)) (List.mem_map_of_mem some (qm_mem y t))
        rw [vlt_some_some, decide_eq_true_eq] at this
        exact this
      · intro h a ha b hb
        obtain ⟨qa, hqa, rfl⟩ := List.mem_map.mp ha
        obtain ⟨qb, hqb, rfl⟩ := List.mem_map.mp hb
        rw [vlt_some_some, decide_eq_true_eq]
        exact lt_of_le_of_lt (all_le_qM x r qa hqa) (lt_of_lt_of_le h (qm_le_all y t qb hqb))

theorem val_anypairs_ge (V₁ V₂ : List Val) (h₁ : V₁ ≠ []) (h₂ : V₂ ≠ [])
    (hS₁ : allSomeB V₁ = true) (hS₂ : allSomeB V₂ = true) :
    (∃ a ∈ V₁, ∃ b ∈ V₂, vge a b = true) ↔ vge (optMaxL V₁) (optMinL V₂) = true := by
  obtain ⟨sq, rfl⟩ : ∃ sq, V₁ = liftS sq := ⟨valsQ V₁, allSomeB_eq_liftS V₁ hS₁⟩
  obtain ⟨lq, rfl⟩ : ∃ lq, V₂ = liftS lq := ⟨valsQ V₂, allSomeB_eq_liftS V₂ hS₂⟩
  rw [optMinL_liftS, optMaxL_liftS]
  cases sq with
  | nil => exact absurd rfl h₁
  | cons x r =>
    cases lq with
    | nil => exact absurd rfl h₂
    | cons y t =>
      show _ ↔ vge (some (r.foldl max x)) (some (t.foldl min y)) = true
      rw [vge_some_some, decide_eq_true_eq]
      constructor
      · rintro ⟨a, ha, b, hb, hab⟩
        obtain ⟨qa, hqa, rfl⟩ := List.mem_map.mp ha
        obtain ⟨qb, hqb, rfl⟩ := List.mem_map.mp hb
        rw [vge_some_some, decide_eq_true_eq] at hab
        exact le_trans (qm_le_all y t qb hqb) (le_trans hab (all_le_qM x r qa hqa))
      · intro h
        refine ⟨some (r.foldl max x), List.mem_map_of_mem some (qM_mem x r),
          some (t.foldl min y), List.mem_map_of_mem some (qm_mem y t), ?_⟩
        rw [vge_some_some, decide_eq_true_eq]
        exact h

theorem all_map_het {α β : Type} (l : List α) (f : α → β) (p : β → Bool) :
    (l.map f).all p = l.all (fun x => p (f x)) := by
  induction l with
  | nil => rfl
  | cons x r ih => simp [List.all_cons, ih]

theorem allSomeB_map (S : List Series) (f : Series → Val)
    (hS : ∀ s ∈ S, (f s).isSome) : allSomeB (S.map f) = true := by
  rw [allSomeB, all_map_het, List.all_eq_true]
  exact hS

theorem pair_all_gt (S L : List Series) (f : Series → Val)
    (hs : S ≠ []) (hl : L ≠ [])
    (hS : ∀ s ∈ S, (f s).isSome) (hL : ∀ l ∈ L, (f l).isSome) :
    ((S.all fun s => L.all fun l => vgt (f s) (f l)) = true)
      ↔ (vgt (optMinL (S.map f)) (optMaxL (L.map f)) = true) := by
  have hne₁ : S.map f ≠ [] := by simpa using hs
  have hne₂ : L.map f ≠ [] := by simpa using hl
  rw [← val_allpairs_gt (S.map f) (L.map f) hne₁ hne₂ (allSomeB_map S f hS) (allSomeB_map L f hL)]
  simp only [List.all_eq_true]
  constructor
  · intro h a ha b hb
    obtain ⟨s, hsS, rfl⟩ := List.mem_map.mp ha
    obtain ⟨l, hlL, rfl⟩ := List.mem_map.mp hb
    exact h s hsS l hlL
  · intro h s hsS l hlL
    exact h (f s) (List.mem_map_of_mem f hsS) (f l) (List.mem_map_of_mem f hlL)

theorem pair_any_le (S L : List Series) (f : Series → Val)
    (hs : S ≠ []) (hl : L ≠ [])
    (hS : ∀ s ∈ S, (f s).isSome) (hL : ∀ l ∈ L, (f l).isSome) :
    ((S.any fun s => L.any fun l => vle (f s) (f l)) = true)
      ↔ (vle (optMinL (S.map f)) (optMaxL (L.map f)) = true) := by
  have hne₁ : S.map f ≠ [] := by simpa using hs
  have hne₂ : L.map f ≠ [] := by simpa using hl
  rw [← val_anypairs_le (S.map f) (L.map f) hne₁ hne₂ (allSomeB_map S f hS) (allSomeB_map L f hL)]
  simp only [List.any_eq_true]
  constructor
  · rintro ⟨s, hsS, l, hlL, hv⟩
    exact ⟨f s, List.mem_map_of_mem f hsS, f l, List.mem_map_of_mem f hlL, hv⟩
  · rintro ⟨a, ha, b, hb, hv⟩
    obtain ⟨s, hsS, rfl⟩ := List.mem_map.mp ha
    obtain ⟨l, hlL, rfl⟩ := List.mem_map.mp hb
    exact ⟨s, hsS, l, hlL, hv⟩

theorem pair_all_lt (S L : List Series) (f : Series → Val)
    (hs : S ≠ []) (hl : L ≠ [])
    (hS : ∀ s ∈ S, (f s).isSome) (hL : ∀ l ∈ L, (f l).isSome) :
    ((S.all fun s => L.all fun l => vlt (f s) (f l)) = true)
      ↔ (vlt (optMaxL (S.map f)) (optMinL (L.map f)) = true) := by
  have hne₁ : S.map f ≠ [] := by simpa using hs
  have hne₂ : L.map f ≠ [] := by simpa using hl
  rw [← val_allpairs_lt (S.map f) (L.map f) hne₁ hne₂ (allSomeB_map S f hS) (allSomeB_map L f hL)]
  simp only [List.all_eq_true]
  constructor
  · intro h a ha b hb
    obtain ⟨s, hsS, rfl⟩ := List.mem_map.mp ha
    obtain ⟨l, hlL, rfl⟩ := List.mem_map.mp hb
    exact h s hsS l hlL
  · intro h s hsS l hlL
    exact h (f s) (List.mem_map_of_mem f hsS) (f l) (List.mem_map_of_mem f hlL)

theorem pair_any_ge (S L : List Series) (f : Series → Val)
    (hs : S ≠ []) (hl : L ≠ [])
    (hS : ∀ s ∈ S, (f s).isSome) (hL : ∀ l ∈ L, (f l).isSome) :
    ((S.any fun s => L.any fun l => vge (f s) (f l)) = true)
      ↔ (vge (optMaxL (S.map f)) (optMinL (L.map f)) = true) := by
  have hne₁ : S.map f ≠ [] := by simpa using hs
  have hne₂ : L.map f ≠ [] := by simpa using hl
  rw [← val_anypairs_ge (S.map f) (L.map f) hne₁ hne₂ (allSomeB_map S f hS) (allSomeB_map L f hL)]
  simp only [List.any_eq_true]
  constructor
  · rintro ⟨s, hsS, l, hlL, hv⟩
    exact ⟨f s, List.mem_map_of_mem f hsS, f l, List.mem_map_of_mem f hlL, hv⟩
  · rintro ⟨a, ha, b, hb, hv⟩
    obtain ⟨s, hsS, rfl⟩ := List.mem_map.mp ha
    obtain ⟨l, hlL, rfl⟩ := List.mem_map.mp hb
    exact ⟨s, hsS, l, hlL, hv⟩

/-- C9 counterexample: the claimed equivalence of the pairwise all/any
scan and the min/max comparison fails on undefined warm-up values: with
SMA groups {2, 5} vs {3} on the closes [100, 10, 0, 0, 12], the pairwise
scan fires +1 at position 4 while the min/max form emits 0 (at position 3
the period-5 MA is still undefined, so the min/max previous-step
comparison is false while the pairwise `any` finds the defined pair). -/
theorem gmma_minmax_cex :
    GMMA.calculate_signals none ⟨"SMA", [2, 5], [3]⟩ [100, 10, 0, 0, 12]
      = .ok (GMMA.core none
          [maOf "SMA" 2 [100, 10, 0, 0, 12], maOf "SMA" 5 [100, 10, 0, 0, 12]]
          [maOf "SMA" 3 [100, 10, 0, 0, 12]] 5) ∧
    (GMMA.core none
        [maOf "SMA" 2 [100, 10, 0, 0, 12], maOf "SMA" 5 [100, 10, 0, 0, 12]]
        [maOf "SMA" 3 [100, 10, 0, 0, 12]] 5).get? 4 = some 1 ∧
    (gmmaMinMax none
        [maOf "SMA" 2 [100, 10, 0, 0, 12], maOf "SMA" 5 [100, 10, 0, 0, 12]]
        [maOf "SMA" 3 [100, 10, 0, 0, 12]] 5).get? 4 = some 0 :=
  ⟨by with_unfolding_all decide, by with_unfolding_all decide, by with_unfolding_all decide⟩

/-- C9 amended: the pairwise all/any scan and the min/max comparison agree
at every position `i ≥ 1` at which all short-group and long-group MA
values are defined at both `i` and `i-1`; with undefined warm-up values
the two can differ. -/
theorem gmma_minmax_equiv (oob : Val) (shortMas longMas : List Series) (n i : ℕ)
    (hs : shortMas ≠ []) (hl : longMas ≠ []) (hi1 : 1 ≤ i)
    (hdef : ∀ s ∈ shortMas ++ longMas, (atV s i).isSome ∧ (atV s (i - 1)).isSome) :
    (GMMA.core oob shortMas longMas n).get? i
      = (gmmaMinMax oob shortMas longMas n).get? i := by
  have hSi : ∀ s ∈ shortMas, (atV s i).isSome :=
    fun s h => (hdef s (List.mem_append_left _ h)).1
  have hSp : ∀ s ∈ shortMas, (atV s (i - 1)).isSome :=
    fun s h => (hdef s (List.mem_append_left _ h)).2
  have hLi : ∀ l ∈ longMas, (atV l i).isSome :=
    fun l h => (hdef l (List.mem_append_right _ h)).1
  have hLp : ∀ l ∈ longMas, (atV l (i - 1)).isSome :=
    fun l h => (hdef l (List.mem_append_right _ h)).2
  unfold GMMA.core gmmaMinMax
  rw [get?_mapRange, get?_mapRange]
  by_cases hn : i < n
  · rw [if_pos hn, if_pos hn]
    have h0 : ¬(i = 0) := by omega
    simp only [prevV, eq_false h0, if_false]
    congr 1
    exact if_congr (pair_all_gt shortMas longMas (fun s => atV s i) hs hl hSi hLi)
      (if_congr (pair_any_le shortMas longMas (fun s => atV s (i - 1)) hs hl hSp hLp) rfl rfl)
      (if_congr (pair_all_lt shortMas longMas (fun s => atV s i) hs hl hSi hLi)
        (if_congr (pair_any_ge shortMas longMas (fun s => atV s (i - 1)) hs hl hSp hLp) rfl rfl)
        rfl)
  · rw [if_neg hn, if_neg hn]

theorem gmma_minmax_equiv_witness :
    (([liftS [1, 2]] : List Series) ≠ [] ∧ ([liftS [0, 1]] : List Series) ≠ [] ∧ (1 ≤ 1) ∧
     (∀ s ∈ ([liftS [1, 2]] : List Series) ++ [liftS [0, 1]],
        (atV s 1).isSome ∧ (atV s (1 - 1)).isSome)) ∧
    (GMMA.core none [liftS [1, 2]] [liftS [0, 1]] 2).get? 1
      = (gmmaMinMax none [liftS [1, 2]] [liftS [0, 1]] 2).get? 1 :=
  ⟨⟨by decide, by decide, by decide, by decide⟩,
   gmma_minmax_equiv none [liftS [1, 2]] [liftS [0, 1]] 2 1
     (by decide) (by decide) (by decide) (by decide)⟩

theorem maOf_at_zero (kind : String) (p : ℕ) (closes : List ℚ)
    (hk : kind = "SMA" ∨ kind = "EMA" ∨ kind = "WMA") (hp : 1 ≤ p) (hc : closes ≠ []) :
    atV (maOf kind p closes) 0 = none ∨ atV (maOf kind p closes) 0 = some (closes.headD 0) := by
  obtain ⟨c, rest, rfl⟩ : ∃ c rest, closes = c :: rest := by
    cases closes with
    | nil => exact absurd rfl hc
    | cons c rest => exact ⟨c, rest, rfl⟩
  have hlen : 0 < (liftS (c :: rest)).length := by simp [length_liftS]
  have htake : (liftS (c :: rest)).take 1 = [some c] := by simp [liftS]
  unfold maOf
  rcases hk with hk | hk | hk <;> rw [hk]
  · rw [if_pos rfl]
    unfold rollingMean atV
    rw [get?_prefixMap, if_pos hlen, htake]
    by_cases hp1 : p ≤ 1
    · right
      have hpe : p = 1 := Nat.le_antisymm hp1 hp
      subst hpe
      show meanF 1 [some c] = some c
      unfold meanF
      split_ifs with hcond
      · have h1 : valsQ (lastN 1 [some c]) = [c] := rfl
        rw [h1]
        norm_num [sumQ, List.foldl_cons, List.foldl_nil]
      · exact absurd ⟨by simp, by simp [allSomeB, lastN]⟩ hcond
    · left
      show meanF p [some c] = none
      unfold meanF
      rw [if_neg]
      rintro ⟨h1, -⟩
      simp at h1
      omega
  · rw [if_neg (by decide), if_pos rfl]
    right
    unfold ewmMean atV
    rw [get?_prefixMap, if_pos hlen, htake]
    rfl
  · rw [if_neg (by decide), if_neg (by decide)]
    unfold rollingWma atV
    rw [get?_prefixMap, if_pos hlen, htake]
    by_cases hp1 : p ≤ 1
    · right
      have hpe : p = 1 := Nat.le_antisymm hp1 hp
      subst hpe
      show wmaF 1 [some c] = some c
      unfold wmaF
      split_ifs with hcond
      · have h1 : valsQ (lastN 1 [some c]) = [c] := rfl
        have h2 : weightsTo 1 = [((0 : ℕ) : ℚ) + 1] := rfl
        rw [h1, h2]
        norm_num [dotQ, sumQ, List.foldl_cons, List.foldl_nil]
      · exact absurd ⟨by simp, by simp [allSomeB, lastN]⟩ hcond
    · left
      show wmaF p [some c] = none
      unfold wmaF
      rw [if_neg]
      rintro ⟨h1, -⟩
      simp at h1
      omega

/-- C10: implicit first-row safety of GMMA: for a nonempty bar series,
nonempty groups with positive periods, and any valid MA kind, every group
MA at position 0 is either undefined or equal to the first close, so both
full-separation conditions are false at position 0; the signal at position
0 is therefore 0 regardless of the out-of-range policy used for the
`series[i-1]` read — the backreference guard is never consulted there. -/
theorem gmma_first_row_safe (kind : String) (closes : List ℚ) (shorts longs : List ℕ)
    (hk : kind = "SMA" ∨ kind = "EMA" ∨ kind = "WMA")
    (hc : closes ≠ []) (hs : shorts ≠ []) (hl : longs ≠ [])
    (hp : ∀ p ∈ shorts ++ longs, 1 ≤ p) :
    (∀ s ∈ (shorts ++ longs).map (fun p => maOf kind p closes),
        atV s 0 = none ∨ atV s 0 = some (closes.headD 0)) ∧
    ((shorts.map (fun p => maOf kind p closes)).all (fun s =>
        (longs.map (fun p => maOf kind p closes)).all (fun l =>
          vgt (atV s 0) (atV l 0))) = false) ∧
    ((shorts.map (fun p => maOf kind p closes)).all (fun s =>
        (longs.map (fun p => maOf kind p closes)).all (fun l =>
          vlt (atV s 0) (atV l 0))) = false) ∧
    (∀ oob : Val,
        (GMMA.core oob (shorts.map (fun p => maOf kind p closes))
          (longs.map (fun p => maOf kind p closes)) closes.length).get? 0 = some 0) := by
  have hz : ∀ p ∈ shorts ++ longs,
      atV (maOf kind p closes) 0 = none ∨
      atV (maOf kind p closes) 0 = some (closes.headD 0) :=
    fun p hpm => maOf_at_zero kind p closes hk (hp p hpm) hc
  obtain ⟨p₀, shorts', rfl⟩ : ∃ p₀ shorts', shorts = p₀ :: shorts' := by
    cases shorts with
    | nil => exact absurd rfl hs
    | cons a b => exact ⟨a, b, rfl⟩
  obtain ⟨q₀, longs', rfl⟩ : ∃ q₀ longs', longs = q₀ :: longs' := by
    cases longs with
    | nil => exact absurd rfl hl
    | cons a b => exact ⟨a, b, rfl⟩
  have hz₀ := hz p₀ (List.mem_append_left _ (List.mem_cons_self _ _))
  have hzq := hz q₀ (List.mem_append_right _ (List.mem_cons_self _ _))
  have hgt : vgt (atV (maOf kind p₀ closes) 0) (atV (maOf kind q₀ closes) 0) = false := by
    rcases hz₀ with h | h <;> rcases hzq with h2 | h2 <;> rw [h, h2]
    · exact vgt_none_left none
    · exact vgt_none_left _
    · exact vgt_none_right _
    · rw [vgt_some_some]
      simp
  have hlt : vlt (atV (maOf kind p₀ closes) 0) (atV (maOf kind q₀ closes) 0) = false := by
    rcases hz₀ with h | h <;> rcases hzq with h2 | h2 <;> rw [h, h2]
    · exact vlt_none_left none
    · exact vlt_none_left _
    · exact vlt_none_right _
    · rw [vlt_some_some]
      simp
  have hAgt : ((p₀ :: shorts').map (fun p => maOf kind p closes)).all (fun s =>
      ((q₀ :: longs').map (fun p => maOf kind p closes)).all (fun l =>
        vgt (atV s 0) (atV l 0))) = false := by
    rw [List.map_cons, List.map_cons, List.all_cons, List.all_cons, hgt]
    simp
  have hAlt : ((p₀ :: shorts').map (fun p => maOf kind p closes)).all (fun s =>
      ((q₀ :: longs').map (fun p => maOf kind p closes)).all (fun l =>
        vlt (atV s 0) (atV l 0))) = false := by
    rw [List.map_cons, List.map_cons, List.all_cons, List.all_cons, hlt]
    simp
  refine ⟨?_, hAgt, hAlt, ?_⟩
  · intro s hsm
    obtain ⟨p, hpm, rfl⟩ := List.mem_map.mp hsm
    exact hz p hpm
  · intro oob
    unfold GMMA.core
    rw [get?_mapRange, if_pos (by simpa [List.length_pos] using hc)]
    rw [hAgt, hAlt]
    rfl

theorem gmma_first_row_safe_witness :
    ((("SMA" : String) = "SMA" ∨ ("SMA" : String) = "EMA" ∨ ("SMA" : String) = "WMA") ∧
     ([1] : List ℚ) ≠ [] ∧ ([1] : List ℕ) ≠ [] ∧ ([2] : List ℕ) ≠ [] ∧
     (∀ p ∈ ([1] : List ℕ) ++ [2], 1 ≤ p)) ∧
    ((∀ s ∈ (([1] : List ℕ) ++ [2]).map (fun p => maOf "SMA" p [1]),
        atV s 0 = none ∨ atV s 0 = some (([1] : List ℚ).headD 0)) ∧
     ((([1] : List ℕ).map (fun p => maOf "SMA" p [1])).all (fun s =>
        (([2] : List ℕ).map (fun p => maOf "SMA" p [1])).all (fun l =>
          vgt (atV s 0) (atV l 0))) = false) ∧
     ((([1] : List ℕ).map (fun p => maOf "SMA" p [1])).all (fun s =>
        (([2] : List ℕ).map (fun p => maOf "SMA" p [1])).all (fun l =>
          vlt (atV s 0) (atV l 0))) = false) ∧
     (∀ oob : Val,
        (GMMA.core oob (([1] : List ℕ).map (fun p => maOf "SMA" p [1]))
          (([2] : List ℕ).map (fun p => maOf "SMA" p [1])) ([1] : List ℚ).length).get? 0
          = some 0)) :=
  ⟨⟨Or.inl rfl, by decide, by decide, by decide, by decide⟩,
   gmma_first_row_safe "SMA" [1] [1] [2] (Or.inl rfl) (by decide) (by decide)
     (by decide) (by decide)⟩

theorem bucketOf_mono (w : ℕ) {a b : ℕ} (h : a ≤ b) : bucketOf w a ≤ bucketOf w b :=
  Nat.mul_le_mul_right w (Nat.div_le_div_right h)

theorem bucketOf_le_self (w a : ℕ) : bucketOf w a ≤ a :=
  Nat.div_mul_le_self a w

theorem shiftClose_time_le (ticks : List Tick) :
    ∀ u ∈ shiftClose (filterSession ticks), u.time ≤ sessionCloseS - 1 := by
  intro u hu
  obtain ⟨v, hv, rfl⟩ := List.mem_map.mp hu
  have hvb := (List.mem_filter.mp hv).2
  rw [Bool.and_eq_true, decide_eq_true_eq, decide_eq_true_eq] at hvb
  by_cases he : v.time = sessionCloseS
  · rw [if_pos he]
    show v.time - 1 ≤ sessionCloseS - 1
    omega
  · rw [if_neg he]
    have := hvb.2
    unfold sessionCloseS at this he ⊢
    omega

theorem mem_insertN (x y : ℕ) (l : List ℕ) : y ∈ insertN x l ↔ y = x ∨ y ∈ l := by
  induction l with
  | nil => simp [insertN]
  | cons z r ih =>
    unfold insertN
    split_ifs
    · simp [List.mem_cons]
    · simp only [List.mem_cons, ih]
      tauto

theorem mem_sortN (l : List ℕ) (x : ℕ) : x ∈ sortN l ↔ x ∈ l := by
  induction l with
  | nil => simp [sortN]
  | cons z r ih =>
    show x ∈ insertN z (sortN r) ↔ _
    rw [mem_insertN]
    simp only [List.mem_cons, ih]

theorem labelsOf_le (w : ℕ) (ts : List Tick) (m : ℕ) (h : ∀ t ∈ ts, t.time ≤ m) :
    ∀ lab ∈ labelsOf w ts, lab ≤ m := by
  intro lab hlab
  unfold labelsOf at hlab
  have h1 := List.mem_dedup.mp hlab
  rw [mem_sortN] at h1
  obtain ⟨t, ht, rfl⟩ := List.mem_map.mp h1
  exact le_trans (bucketOf_le_self w t.time) (h t ht)

theorem barsOf_label_le (w : ℕ) (ts : List Tick) (m : ℕ) (h : ∀ t ∈ ts, t.time ≤ m) :
    ∀ b ∈ barsOf w ts, b.label ≤ m := by
  intro b hb
  obtain ⟨lab, hlab, rfl⟩ := List.mem_map.mp hb
  exact labelsOf_le w ts m h lab hlab

theorem fixBar_id (b : Bar) (h : b.label ≤ sessionCloseS - 1) : fixBar b = b := by
  unfold fixBar
  rw [if_neg]
  rintro ⟨h1, h2⟩
  unfold sessionCloseS at h
  omega

theorem mem_relabelLast (bs : List Bar) (b : Bar) (h : b ∈ relabelLast bs) :
    b ∈ bs ∨ ∃ a ∈ bs, b = fixBar a := by
  induction bs with
  | nil => exact Or.inl h
  | cons x rest ih =>
    cases rest with
    | nil =>
      rw [show relabelLast [x] = [fixBar x] from rfl, List.mem_singleton] at h
      exact Or.inr ⟨x, List.mem_singleton_self x, h⟩
    | cons y r =>
      rw [show relabelLast (x :: y :: r) = x :: relabelLast (y :: r) from rfl,
        List.mem_cons] at h
      rcases h with rfl | h2
      · exact Or.inl (List.mem_cons_self _ _)
      · rcases ih h2 with h3 | ⟨a, ha, rfl⟩
        · exact Or.inl (List.mem_cons_of_mem _ h3)
        · exact Or.inr ⟨a, List.mem_cons_of_mem _ ha, rfl⟩

/-- C3: session-close boundary handling: every in-session tick stamped
exactly at the session close is shifted back one second and lands in the
bucket that is maximal among all in-session buckets; the emitted bar
series never contains a bar labelled after the session close; and any bar
labelled after the session close (there are none) would be relabelled to
exactly the session close. -/
theorem session_close_boundary (w : ℕ) (ticks : List Tick) (hw : 1 ≤ w) :
    (∀ t ∈ filterSession ticks, t.time = sessionCloseS →
       ({ t with time := sessionCloseS - 1 } ∈ shiftClose (filterSession ticks) ∧
        ∀ u ∈ shiftClose (filterSession ticks),
          bucketOf w u.time ≤ bucketOf w (sessionCloseS - 1))) ∧
    (∀ b ∈ genKLine w ticks, b.label ≤ sessionCloseS) ∧
    (∀ b ∈ genKLine w ticks, sessionCloseS < b.label → b.label = sessionCloseS) := by
  have hle := shiftClose_time_le ticks
  have hbars := barsOf_label_le w (shiftClose (filterSession ticks)) (sessionCloseS - 1) hle
  have hgen : ∀ b ∈ genKLine w ticks, b.label ≤ sessionCloseS - 1 := by
    intro b hb
    unfold genKLine at hb
    rcases mem_relabelLast _ _ hb with h | ⟨a, ha, rfl⟩
    · exact hbars b h
    · rw [fixBar_id a (hbars a ha)]
      exact hbars a ha
  refine ⟨?_, ?_, ?_⟩
  · intro t ht he
    constructor
    · have := List.mem_map_of_mem
        (fun v => if v.time = sessionCloseS then { v with time := v.time - 1 } else v) ht
      dsimp only at this
      rw [if_pos he] at this
      rw [show ({ t with time := sessionCloseS - 1 } : Tick)
          = { t with time := t.time - 1 } from by rw [he]]
      exact this
    · intro u hu
      exact bucketOf_mono w (hle u hu)
  · intro b hb
    have := hgen b hb
    omega
  · intro b hb hgt
    have := hgen b hb
    omega

theorem session_close_boundary_witness :
    1 ≤ 300 ∧
    ((∀ t ∈ filterSession [⟨33000, 2, 1⟩, ⟨48600, 5, 1⟩], t.time = sessionCloseS →
       ({ t with time := sessionCloseS - 1 }
          ∈ shiftClose (filterSession [⟨33000, 2, 1⟩, ⟨48600, 5, 1⟩]) ∧
        ∀ u ∈ shiftClose (filterSession [⟨33000, 2, 1⟩, ⟨48600, 5, 1⟩]),
          bucketOf 300 u.time ≤ bucketOf 300 (sessionCloseS - 1))) ∧
     (∀ b ∈ genKLine 300 [⟨33000, 2, 1⟩, ⟨48600, 5, 1⟩], b.label ≤ sessionCloseS) ∧
     (∀ b ∈ genKLine 300 [⟨33000, 2, 1⟩, ⟨48600, 5, 1⟩],
        sessionCloseS < b.label → b.label = sessionCloseS)) :=
  ⟨by decide, session_close_boundary 300 [⟨33000, 2, 1⟩, ⟨48600, 5, 1⟩] (by decide)⟩

/-- C8: cache atomicity on failure: when a bar-aggregation run fails, the
cache state is unchanged — no artifact becomes visible under the key — so
a later request with the identical key behaves exactly as it would have
against the original cache state, recomputing from ticks when the key was
uncached. -/
theorem cache_clean_on_failure (w : ℕ) (parts parts₂ : List (List RawTick))
    (cache : Option (List Bar)) (e : PyErr)
    (h : (getKLine w parts cache).2 = .error e) :
    (getKLine w parts cache).1 = cache ∧
    getKLine w parts₂ (getKLine w parts cache).1 = getKLine w parts₂ cache := by
  have h1 : (getKLine w parts cache).1 = cache := by
    unfold getKLine at h ⊢
    cases cache with
    | some bars => simp at h
    | none =>
      by_cases hp : parts.isEmpty
      · rw [if_pos hp]
      · rw [if_neg hp] at h ⊢
        cases hpar : parseAll parts.flatten with
        | error e2 => rfl
        | ok ticks =>
          rw [hpar] at h
          simp at h
  exact ⟨h1, by rw [h1]⟩

theorem cache_clean_on_failure_witness :
    (getKLine 300 ([] : List (List RawTick)) none).2 = .error PyErr.fileNotFound ∧
    ((getKLine 300 ([] : List (List RawTick)) none).1 = none ∧
     getKLine 300 [[⟨"09:10:11", 1, 1⟩]] (getKLine 300 ([] : List (List RawTick)) none).1
       = getKLine 300 [[⟨"09:10:11", 1, 1⟩]] none) :=
  ⟨by decide,
   cache_clean_on_failure 300 [] [[⟨"09:10:11", 1, 1⟩]] none PyErr.fileNotFound (by decide)⟩

theorem smas_no_lookahead_witness :
    (("M1" = "M1" ∨ "M1" = "M2" ∨ "M1" = "M3" ∨ "M1" = "M4") ∧
     ("SMA" = "SMA" ∨ "SMA" = "EMA" ∨ "SMA" = "WMA") ∧
     agreeToQ 2 [1, 2, 3] [1, 2, 3, 99]) ∧
    (sigListOf (SMAS.calculate_signals (fun q => q)
        ⟨"M1", "SMA", 2, 1, Thresh.scl 0, none, none⟩ [1, 2, 3])).get? 2
      = (sigListOf (SMAS.calculate_signals (fun q => q)
        ⟨"M1", "SMA", 2, 1, Thresh.scl 0, none, none⟩ [1, 2, 3, 99])).get? 2 :=
  ⟨⟨Or.inl rfl, Or.inl rfl, by intro i hi; interval_cases i <;> rfl⟩,
   smas_no_lookahead (fun q => q) ⟨"M1", "SMA", 2, 1, Thresh.scl 0, none, none⟩
     [1, 2, 3] [1, 2, 3, 99] 2 (Or.inl rfl) (Or.inl rfl)
     (by intro i hi; interval_cases i <;> rfl)⟩
